import Mathlib

/- Verification development for the module-dependency-graph compiler core
   (webpack 2.2.1, lib/Compilation.js).  The relevant parts of the source are
   embedded shallowly: JS objects become structures, in-place mutation becomes
   explicit state passing, JS maps become association lists, thrown exceptions
   become Except, and the explicit work-stack traversals (assignIndex,
   assignDepth, processDependenciesBlockForChunk) become fuel-indexed
   functions over a task queue.  Theorems at the end settle the spec claims. -/

namespace WP

/-- Association-list lookup with Nat keys; models a JS object used as a map
from numeric keys (newest binding shadows older ones, mirroring overwrite). -/
def alook : List (Nat × Nat) → Nat → Option Nat
  | [], _ => none
  | (k, v) :: rest, m => if k = m then some v else alook rest m

@[simp] theorem alook_nil (m : Nat) : alook [] m = none := rfl

@[simp] theorem alook_cons (k v : Nat) (rest : List (Nat × Nat)) (m : Nat) :
    alook ((k, v) :: rest) m = if k = m then some v else alook rest m := rfl

/-- Association-list lookup with String keys; models a JS object keyed by
identifier strings, such as the registry map of Compilation. -/
def slook {α : Type} : List (String × α) → String → Option α
  | [], _ => none
  | (k, v) :: rest, s => if k = s then some v else slook rest s

@[simp] theorem slook_nil {α : Type} (s : String) : slook ([] : List (String × α)) s = none := rfl

@[simp] theorem slook_cons {α : Type} (k : String) (v : α) (rest : List (String × α)) (s : String) :
    slook ((k, v) :: rest) s = if k = s then some v else slook rest s := rfl

/-- Module graph abstraction shared by the index and depth passes: `n` modules
numbered 0..n-1; `succ` lists, per module, the target modules of every
dependency reachable in its dependency-block tree (its own dependencies,
nested blocks' dependencies and block-variable dependencies, restricted to
dependencies whose `module` field is set) — exactly the set of modules the
source's assignIndex / assignDepth traversals enqueue from that module. -/
structure MGraph where
  n : Nat
  succ : List (List Nat)
deriving Repr, DecidableEq

/-- Successor list of module `m` in graph `g`. -/
def succs (g : MGraph) (m : Nat) : List Nat := g.succ.getD m []

end WP

/- ============================================================ -/
/- Module Registry: addModule / getModule / findModule          -/
/- (Compilation.js lines 90-131)                                -/
/- ============================================================ -/

namespace Registry

/-- Module object as seen by addModule: resolution identifier, an object
identity tag (`debugId`, standing for JS object identity), the fields read by
the cache check (`error`, `cacheable`, and the outcome of
`needRebuild(fileTimestamps, contextTimestamps)` abstracted as a Bool), the
per-module error/warning lists copied forward on cache reuse, the id fields
touched by id continuity, the build flag touched by `unbuild`, and the graph
links cleared by `disconnect`. -/
structure Module where
  identifier : String
  debugId : Nat
  error : Bool
  cacheable : Bool
  needRebuild : Bool
  errors : List Nat
  warnings : List Nat
  id : Option Nat
  lastId : Option Nat
  built : Bool
  chunks : List Nat
  reasons : List (Nat × Nat)
deriving Repr, DecidableEq

/-- Modelled from the spec: `Module.unbuild` (lib/Module.js is not under src).
Spec section 3 describes the build state reset before a (re)build: the module
returns to the unbuilt state; its identity fields are untouched. -/
def Module.unbuild (m : Module) : Module := { m with built := false }

/-- Modelled from the spec: `Module.disconnect` (lib/Module.js is not under
src).  It resets the module's graph links (reasons, chunk membership) so the
cached instance can be re-linked into the new graph; identity is untouched. -/
def Module.disconnect (m : Module) : Module := { m with chunks := [], reasons := [] }

/-- Compilation state as read and written by addModule: the identity map
`_modules`, the `modules` array, the optional cache map, truthiness of the
`fileTimestamps` / `contextTimestamps` fields, and the build-wide error and
warning lists. -/
structure CompState where
  _modules : List (String × Module)
  modules : List Module
  cache : Option (List (String × Module))
  hasFileTimestamps : Bool
  hasContextTimestamps : Bool
  errors : List Nat
  warnings : List Nat
deriving Repr, DecidableEq

/-- Result of addModule: `true`, `false`, or a cached replacement Module. -/
inductive AddModuleResult where
  | isTrue
  | isFalse
  | cached (m : Module)
deriving Repr, DecidableEq

/-- Embedding of Compilation.addModule (lines 90-122).  Returns false when the
identity map already holds the identifier; otherwise consults the cache: an
unchanged cached module is disconnected, registered and returned (its recorded
errors/warnings appended to the build-wide lists); a stale cached entry passes
its id to `lastId` of the candidate; in all remaining paths the candidate is
unbuilt, registered (and written to the cache when a cache exists) and `true`
is returned. -/
def addModule (st : CompState) (module : Module) (cacheGroup : Option String) :
    AddModuleResult × CompState :=
  match WP.slook st._modules module.identifier with
  | some _ => (.isFalse, st)
  | none =>
    match st.cache with
    | some cacheMap =>
      match WP.slook cacheMap ((cacheGroup.getD "m") ++ module.identifier) with
      | some cacheModule =>
        if (if (!cacheModule.error && cacheModule.cacheable &&
                st.hasFileTimestamps && st.hasContextTimestamps) then
              cacheModule.needRebuild
            else
              true) then
          (.isTrue, { st with
            _modules := (module.identifier,
              Module.unbuild { module with lastId := cacheModule.id }) :: st._modules,
            cache := some (((cacheGroup.getD "m") ++ module.identifier,
              Module.unbuild { module with lastId := cacheModule.id }) :: cacheMap),
            modules := st.modules ++ [Module.unbuild { module with lastId := cacheModule.id }] })
        else
          (.cached cacheModule.disconnect, { st with
            _modules := (module.identifier, cacheModule.disconnect) :: st._modules,
            modules := st.modules ++ [cacheModule.disconnect],
            errors := st.errors ++ cacheModule.disconnect.errors,
            warnings := st.warnings ++ cacheModule.disconnect.warnings })
      | none =>
        (.isTrue, { st with
          _modules := (module.identifier, module.unbuild) :: st._modules,
          cache := some (((cacheGroup.getD "m") ++ module.identifier,
            module.unbuild) :: cacheMap),
          modules := st.modules ++ [module.unbuild] })
    | none =>
      (.isTrue, { st with
        _modules := (module.identifier, module.unbuild) :: st._modules,
        modules := st.modules ++ [module.unbuild] })

/-- Embedding of Compilation.getModule (lines 124-127): pure lookup of the
argument module's identifier in the identity map. -/
def getModule (st : CompState) (module : Module) : Option Module :=
  WP.slook st._modules module.identifier

/-- Embedding of Compilation.findModule (lines 129-131). -/
def findModule (st : CompState) (identifier : String) : Option Module :=
  WP.slook st._modules identifier

theorem addModule_isTrue_registers (st st1 : CompState) (A : Module) (cg : Option String)
    (h : addModule st A cg = (.isTrue, st1)) :
    ∃ A2, st1._modules = (A.identifier, A2) :: st._modules ∧
      A2.debugId = A.debugId ∧ A2.identifier = A.identifier := by
  unfold addModule at h
  repeat' split at h
  all_goals
    try (have h2 : _ = st1 := congrArg Prod.snd h; subst h2; exact ⟨_, rfl, rfl, rfl⟩)
  all_goals
    exact absurd (congrArg Prod.fst h) (by simp)

/-- C1: once addModule has accepted a module A (returned true), a later
addModule of any module B with the same identifier returns false without
changing the state, and getModule B (and findModule on that identifier, and
getModule A) all return the canonical instance registered by the first call —
the same object (same debugId and identifier) as A. -/
theorem addModule_second_false_canonical (st st1 : CompState) (A B : Module)
    (cgA cgB : Option String)
    (h1 : addModule st A cgA = (.isTrue, st1))
    (hid : B.identifier = A.identifier) :
    addModule st1 B cgB = (.isFalse, st1) ∧
    ∃ A2, getModule st1 B = some A2 ∧ findModule st1 B.identifier = some A2 ∧
      getModule st1 A = some A2 ∧ A2.debugId = A.debugId ∧ A2.identifier = A.identifier := by
  obtain ⟨A2, hreg, hdbg, hident⟩ := addModule_isTrue_registers st st1 A cgA h1
  have hlookB : WP.slook st1._modules B.identifier = some A2 := by
    rw [hreg, hid]; simp
  have hlookA : WP.slook st1._modules A.identifier = some A2 := by
    rw [hreg]; simp
  constructor
  · unfold addModule
    simp [hlookB]
  · exact ⟨A2, hlookB, hlookB, hlookA, hdbg, hident⟩

/-- Concrete module A used by the registry witness. -/
def regA : Module :=
  { identifier := "src-a", debugId := 1, error := false, cacheable := true,
    needRebuild := false, errors := [], warnings := [], id := none,
    lastId := none, built := true, chunks := [], reasons := [] }

/-- Concrete module B: same identifier as A, different object identity. -/
def regB : Module := { regA with debugId := 2 }

/-- Empty compilation state used by the registry witness. -/
def regSt0 : CompState :=
  { _modules := [], modules := [], cache := none, hasFileTimestamps := false,
    hasContextTimestamps := false, errors := [], warnings := [] }

/-- State after the first addModule call of the registry witness. -/
def regSt1 : CompState :=
  { regSt0 with _modules := [("src-a", regA.unbuild)], modules := [regA.unbuild] }

theorem addModule_second_false_canonical_witness :
    addModule regSt0 regA none = (.isTrue, regSt1) ∧
    regB.identifier = regA.identifier ∧
    (addModule regSt1 regB none = (.isFalse, regSt1) ∧
     ∃ A2, getModule regSt1 regB = some A2 ∧
       findModule regSt1 regB.identifier = some A2 ∧
       getModule regSt1 regA = some A2 ∧ A2.debugId = regA.debugId ∧
       A2.identifier = regA.identifier) :=
  ⟨by decide, by decide,
    addModule_second_false_canonical regSt0 regSt1 regA regB none none (by decide) (by decide)⟩

end Registry

/- ============================================================ -/
/- checkConstraints (Compilation.js lines 1226-1245)            -/
/- ============================================================ -/

namespace Constraints

/-- Module as read by checkConstraints: only its id (null until assigned). -/
structure CModule where
  id : Option Nat
deriving Repr, DecidableEq

/-- Chunk as read by checkConstraints: `debugId` stands for JS object
identity, which is what `chunks.indexOf(chunk)` compares with. -/
structure CChunk where
  debugId : Nat
deriving Repr, DecidableEq

/-- Embedding of the module loop of checkConstraints (lines 1229-1235).  The
source declares `usedIds = {}`, tests `usedIds[moduleId]` for every module and
throws on a hit — but never inserts anything into `usedIds`; the parameter is
passed along unchanged exactly as in the source. -/
def moduleConstraintLoop (usedIds : List Nat) : List CModule → Except String Unit
  | [] => .ok ()
  | m :: rest =>
    if (match m.id with | some i => usedIds.contains i | none => false) then
      .error "checkConstraints: duplicate module id"
    else
      moduleConstraintLoop usedIds rest

/-- JS `chunks.indexOf(chunk)`: first position holding the same object. -/
def indexOfChunk (chunks : List CChunk) (c : CChunk) : Nat :=
  chunks.findIdx (fun x => x.debugId == c.debugId)

/-- Embedding of the chunk loop of checkConstraints (lines 1237-1244): a chunk
whose first occurrence is at an earlier position than the current index is a
duplicate entry and throws.  The per-chunk `chunk.checkConstraints()` call
targets lib/Chunk.js (not under src) and is modelled as a no-op. -/
def chunkConstraintLoop (all : List CChunk) : Nat → List CChunk → Except String Unit
  | _, [] => .ok ()
  | index, c :: rest =>
    if indexOfChunk all c ≠ index then
      .error "checkConstraints: duplicate chunk in compilation"
    else
      chunkConstraintLoop all (index + 1) rest

/-- Embedding of Compilation.checkConstraints (lines 1226-1245). -/
def checkConstraints (modules : List CModule) (chunks : List CChunk) :
    Except String Unit :=
  match moduleConstraintLoop [] modules with
  | .error e => .error e
  | .ok _ => chunkConstraintLoop chunks 0 chunks

/-- C4 (refuted as stated): on two distinct modules carrying the same id (and
no duplicate chunk), checkConstraints returns normally instead of throwing —
the `usedIds` map is never populated, so the duplicate-module-id branch is
dead code.  The second conjunct shows the module check can never fire on any
module list. -/
theorem checkConstraints_misses_duplicate_module_ids :
    checkConstraints [{ id := some 1 }, { id := some 1 }] [] = Except.ok () ∧
    ∀ ms : List CModule, moduleConstraintLoop [] ms = Except.ok () := by
  constructor
  · rfl
  · intro ms
    induction ms with
    | nil => rfl
    | cons m rest ih =>
      cases m with
      | mk mid =>
        cases mid with
        | none => simpa [moduleConstraintLoop] using ih
        | some i => simpa [moduleConstraintLoop] using ih

end Constraints

/- ============================================================ -/
/- addModuleDependencies error classification                   -/
/- (Compilation.js lines 210-260)                               -/
/- ============================================================ -/

namespace DepBatch

/-- Dependency record as read by the classification: its `optional` flag. -/
structure Dep where
  optional : Bool
deriving Repr, DecidableEq

/-- Build-wide error and warning lists; entries are (error tag, origin). -/
structure ErrState where
  errors : List (Nat × Nat)
  warnings : List (Nat × Nat)
deriving Repr, DecidableEq

/-- Embedding of `isOptional()` (lines 238-240): the batch counts as optional
when filtering out the optional records leaves nothing. -/
def isOptionalBatch (dependencies : List Dep) : Bool :=
  (dependencies.filter (fun d => !d.optional)).length == 0

/-- Embedding of `errorOrWarningAndCallback` together with the
`errorAndCallback` / `warningAndCallback` helpers (lines 213-226, 242-248):
the ModuleNotFoundError produced for a failed factory call (line 259) gets the
requesting module as origin and lands on the warnings list when the whole
batch is optional, on the errors list otherwise; the second component is the
error propagated to the async callback (only in bail mode, line 217). -/
def errorOrWarningAndCallback (st : ErrState) (moduleId : Nat)
    (dependencies : List Dep) (errTag : Nat) (bail : Bool) :
    ErrState × Option Nat :=
  if isOptionalBatch dependencies then
    ({ st with warnings := st.warnings ++ [(errTag, moduleId)] }, none)
  else
    ({ st with errors := st.errors ++ [(errTag, moduleId)] },
     if bail then some errTag else none)

theorem isOptionalBatch_iff (dependencies : List Dep) :
    isOptionalBatch dependencies = true ↔ ∀ d ∈ dependencies, d.optional = true := by
  simp [isOptionalBatch, List.length_eq_zero, List.filter_eq_nil_iff]

/-- C5: when the factory call for a de-duplicated dependency batch fails, the
resulting error is appended to the build-wide warnings list if every record in
the batch is optional, and to the build-wide errors list if at least one
record is non-optional (the other list is untouched in each case). -/
theorem factory_failure_classification (st : ErrState) (moduleId errTag : Nat)
    (dependencies : List Dep) (bail : Bool) :
    ((∀ d ∈ dependencies, d.optional = true) →
      (errorOrWarningAndCallback st moduleId dependencies errTag bail).1 =
        { st with warnings := st.warnings ++ [(errTag, moduleId)] }) ∧
    ((∃ d ∈ dependencies, d.optional = false) →
      (errorOrWarningAndCallback st moduleId dependencies errTag bail).1 =
        { st with errors := st.errors ++ [(errTag, moduleId)] }) := by
  constructor
  · intro hall
    have hopt : isOptionalBatch dependencies = true := (isOptionalBatch_iff _).mpr hall
    simp [errorOrWarningAndCallback, hopt]
  · intro hex
    have hopt : isOptionalBatch dependencies = false := by
      rcases hex with ⟨d, hd, hdopt⟩
      rcases Bool.eq_false_or_eq_true (isOptionalBatch dependencies) with ht | hf
      · exact absurd (((isOptionalBatch_iff _).mp ht) d hd) (by simp [hdopt])
      · exact hf
    simp [errorOrWarningAndCallback, hopt]

theorem factory_failure_classification_witness :
    ((errorOrWarningAndCallback ⟨[], []⟩ 5 [⟨true⟩, ⟨true⟩] 7 false).1 =
      { errors := [], warnings := [(7, 5)] } : Prop) ∧
    ((errorOrWarningAndCallback ⟨[], []⟩ 5 [⟨true⟩, ⟨false⟩] 7 false).1 =
      { errors := [(7, 5)], warnings := [] } : Prop) :=
  ⟨(factory_failure_classification ⟨[], []⟩ 5 7 [⟨true⟩, ⟨true⟩] false).1 (by decide),
   (factory_failure_classification ⟨[], []⟩ 5 7 [⟨true⟩, ⟨false⟩] false).2 ⟨⟨false⟩, by decide, rfl⟩⟩

end DepBatch

/- ============================================================ -/
/- buildModule in-flight queueing (Compilation.js lines 133-169) -/
/- ============================================================ -/

namespace Build

/-- Module as read by buildModule: `building` is undefined, or the queue of
callbacks waiting for the single in-flight build (callbacks are Nat tokens). -/
structure BModule where
  building : Option (List Nat)
deriving Repr, DecidableEq

/-- Embedding of the entry of buildModule (lines 135-136): a call while a
build is in flight only appends the callback; otherwise the queue is created
with the caller's callback and `module.build` is invoked (the Bool records
whether this call invoked `module.build`). -/
def buildModule (m : BModule) (cb : Nat) : BModule × Bool :=
  match m.building with
  | some q => ({ m with building := some (q ++ [cb]) }, false)
  | none => ({ m with building := some [cb] }, true)

/-- Embedding of the completion callback (lines 138-141): `module.building` is
cleared and every queued callback is invoked with the build's result; returns
the list of performed (callback, result) invocations. -/
def buildDone (m : BModule) (err : Option Nat) :
    BModule × List (Nat × Option Nat) :=
  match m.building with
  | some q => ({ m with building := none }, q.map (fun cb => (cb, err)))
  | none => (m, [])

/-- Sequence of later buildModule calls; counts how many invoked the build. -/
def requestAll : BModule → List Nat → BModule × Nat
  | m, [] => (m, 0)
  | m, cb :: rest =>
    ((requestAll (buildModule m cb).1 rest).1,
     (if (buildModule m cb).2 then 1 else 0) + (requestAll (buildModule m cb).1 rest).2)

theorem requestAll_inflight (cbs : List Nat) :
    ∀ (m : BModule) (q : List Nat), m.building = some q →
      requestAll m cbs = ({ building := some (q ++ cbs) }, 0) := by
  induction cbs with
  | nil =>
    intro m q hq
    simp [requestAll, ← hq]
  | cons c rest ih =>
    intro m q hq
    simp only [requestAll, buildModule, hq]
    rw [ih { building := some (q ++ [c]) } (q ++ [c]) rfl]
    simp

/-- C7: starting from a module with no build in flight, the first buildModule
call invokes `module.build`; every later call made while the build is in
flight appends its callback to the pending queue without invoking the build
again; when the single in-flight build completes, every queued callback is
invoked exactly once with the build's result, and the queue is cleared. -/
theorem buildModule_single_flight (m0 : BModule) (cb0 : Nat) (cbs : List Nat)
    (err : Option Nat) (h : m0.building = none) :
    (buildModule m0 cb0).2 = true ∧
    (requestAll (buildModule m0 cb0).1 cbs).2 = 0 ∧
    (requestAll (buildModule m0 cb0).1 cbs).1.building = some (cb0 :: cbs) ∧
    (buildDone (requestAll (buildModule m0 cb0).1 cbs).1 err).2 =
      (cb0 :: cbs).map (fun cb => (cb, err)) ∧
    (buildDone (requestAll (buildModule m0 cb0).1 cbs).1 err).1.building = none := by
  have h1 : buildModule m0 cb0 = ({ building := some [cb0] }, true) := by
    simp [buildModule, h]
  have h2 : requestAll (buildModule m0 cb0).1 cbs = ({ building := some (cb0 :: cbs) }, 0) := by
    rw [h1]
    simpa using requestAll_inflight cbs { building := some [cb0] } [cb0] rfl
  refine ⟨by rw [h1], by rw [h2], by rw [h2], ?_, ?_⟩
  · rw [h2]
    simp [buildDone]
  · rw [h2]
    simp [buildDone]

theorem buildModule_single_flight_witness :
    ((⟨none⟩ : BModule).building = none) ∧
    (buildModule ⟨none⟩ 3).2 = true ∧
    (requestAll (buildModule ⟨none⟩ 3).1 [4, 5]).2 = 0 ∧
    (requestAll (buildModule ⟨none⟩ 3).1 [4, 5]).1.building = some [3, 4, 5] ∧
    (buildDone (requestAll (buildModule ⟨none⟩ 3).1 [4, 5]).1 (some 9)).2 =
      [(3, some 9), (4, some 9), (5, some 9)] ∧
    (buildDone (requestAll (buildModule ⟨none⟩ 3).1 [4, 5]).1 (some 9)).1.building = none := by
  refine ⟨rfl, ?_⟩
  have := buildModule_single_flight ⟨none⟩ 3 [4, 5] (some 9) rfl
  simpa using this

end Build

/- ============================================================ -/
/- unseal (Compilation.js lines 530-537)                        -/
/- ============================================================ -/

namespace Unseal

/-- Per-module fields touched by the per-module unseal. -/
structure UModule where
  id : Option Nat
  lastId : Option Nat
  index : Option Nat
  index2 : Option Nat
  depth : Option Nat
  chunks : List Nat
deriving Repr, DecidableEq

/-- Modelled from the spec: `Module.unseal` (lib/Module.js is not under src).
Spec section 3 lifecycle: on graph unseal each member module is reset for the
incremental rebuild — its id moves to lastId for id continuity and the
chunk-graph state (traversal indices, depth, chunk membership) is cleared. -/
def UModule.unsealMod (m : UModule) : UModule :=
  { id := none, lastId := m.id, index := none, index2 := none, depth := none,
    chunks := [] }

/-- Compilation state as touched by Compilation.unseal; module objects live in
`heap` (keyed by object identity) so that the in-place per-module mutation is
distinguishable from the untouched `modules` / `_modules` containers. -/
structure Compilation where
  chunks : List Nat
  namedChunks : List (String × Nat)
  additionalChunkAssets : List Nat
  assets : List (String × Nat)
  modules : List Nat
  _modules : List (String × Nat)
  errors : List Nat
  warnings : List Nat
  entries : List Nat
  preparedChunks : List (String × Option Nat)
  heap : Nat → UModule

/-- Embedding of Compilation.unseal (lines 530-537): empties chunks and
additionalChunkAssets in place, replaces namedChunks and assets with fresh
empty maps, and applies the per-module unseal to every member of
`this.modules`; nothing else is touched (the "unseal" plugin hook has no
registered observers in the core model). -/
def unsealComp (st : Compilation) : Compilation :=
  { st with
    chunks := [],
    namedChunks := [],
    additionalChunkAssets := [],
    assets := [],
    heap := fun i => if st.modules.contains i then (st.heap i).unsealMod else st.heap i }

/-- C10: unseal resets exactly the chunk/asset side of the compilation state —
chunks and additionalChunkAssets become empty, namedChunks and assets become
fresh empty maps — while modules, _modules, errors, warnings, entries and
preparedChunks are left unchanged; module membership is preserved and each
member module merely has its own per-module unseal applied in place. -/
theorem unseal_frame (st : Compilation) :
    (unsealComp st).chunks = [] ∧ (unsealComp st).namedChunks = [] ∧
    (unsealComp st).additionalChunkAssets = [] ∧ (unsealComp st).assets = [] ∧
    (unsealComp st).modules = st.modules ∧ (unsealComp st)._modules = st._modules ∧
    (unsealComp st).errors = st.errors ∧ (unsealComp st).warnings = st.warnings ∧
    (unsealComp st).entries = st.entries ∧
    (unsealComp st).preparedChunks = st.preparedChunks ∧
    (unsealComp st).heap =
      fun i => if st.modules.contains i then (st.heap i).unsealMod else st.heap i :=
  ⟨rfl, rfl, rfl, rfl, rfl, rfl, rfl, rfl, rfl, rfl, rfl⟩

end Unseal

/- ============================================================ -/
/- createChunkAssets (Compilation.js lines 1165-1210)           -/
/- ============================================================ -/

namespace Assets

/-- Chunk as consumed by createChunkAssets.  The filename-template selection,
hash substitution and template render (lines 1175-1200) go through
MainTemplate/ChunkTemplate code that is not under src; following the spec
(section 4.7) their outcome is carried as precomputed per-chunk data: `path`
is the resolved output path and `source` the rendered content.  `debugId`
stands for JS object identity, `files` is the chunk's output file list. -/
structure AChunk where
  debugId : Nat
  path : String
  source : Nat
  files : List String
deriving Repr, DecidableEq

/-- Accumulated emission state: the name-to-content assets map, the build-wide
errors list (entries are ChunkRenderError data: chunk debugId and file), and
the chunks processed so far (with their files lists as left by the loop). -/
structure AState where
  assets : List (String × Nat)
  errors : List (Nat × String)
  done : List AChunk
deriving Repr, DecidableEq

/-- One iteration of the createChunkAssets loop (lines 1169-1209): the
chunk's files list is reset, the asset map is probed at the resolved path; a
hit throws the Conflict error which the per-chunk catch turns into a
ChunkRenderError on the errors list (the chunk's files stay empty and no
asset is written); otherwise the source is stored and the path recorded in
the chunk's files. -/
def processChunk (st : AState) (c : AChunk) : AState :=
  match WP.slook st.assets c.path with
  | some _ =>
    { st with errors := st.errors ++ [(c.debugId, c.path)],
              done := st.done ++ [{ c with files := [] }] }
  | none =>
    { st with assets := st.assets ++ [(c.path, c.source)],
              done := st.done ++ [{ c with files := [c.path] }] }

/-- Embedding of the createChunkAssets loop over this.chunks. -/
def createChunkAssets (st : AState) : List AChunk → AState
  | [] => st
  | c :: rest => createChunkAssets (processChunk st c) rest

/-- Chunk as left by a successful iteration: files = [its resolved path]. -/
def okChunk (c : AChunk) : AChunk := { c with files := [c.path] }

theorem slook_append {α : Type} (l1 l2 : List (String × α)) (s : String) :
    WP.slook (l1 ++ l2) s =
      (match WP.slook l1 s with
       | some v => some v
       | none => WP.slook l2 s) := by
  induction l1 with
  | nil => simp
  | cons kv rest ih =>
    rcases kv with ⟨k, v⟩
    by_cases hk : k = s <;> simp [hk, ih]

theorem slook_pairs_none (cs : List AChunk) (p : String)
    (hp : p ∉ cs.map (fun c => c.path)) :
    WP.slook (cs.map (fun c => (c.path, c.source))) p = none := by
  induction cs with
  | nil => rfl
  | cons c rest ih =>
    simp only [List.map_cons, List.mem_cons] at hp ⊢
    have h1 : ¬(c.path = p) := fun h => hp (Or.inl h.symm)
    simp only [WP.slook_cons, if_neg h1]
    exact ih (fun h => hp (Or.inr h))

theorem slook_pairs_mem (cs : List AChunk) (c : AChunk)
    (hmem : c ∈ cs) (hnd : (cs.map (fun x => x.path)).Nodup) :
    WP.slook (cs.map (fun x => (x.path, x.source))) c.path = some c.source := by
  induction cs with
  | nil => cases hmem
  | cons d rest ih =>
    simp only [List.map_cons, List.nodup_cons] at hnd
    rcases List.mem_cons.mp hmem with heq | hmem2
    · subst heq
      simp
    · have hne : ¬(d.path = c.path) := by
        intro h
        exact hnd.1 (h ▸ List.mem_map_of_mem (fun x => x.path) hmem2)
      simp only [List.map_cons, WP.slook_cons, if_neg hne]
      exact ih hmem2 hnd.2

theorem createChunkAssets_append (l1 l2 : List AChunk) :
    ∀ st, createChunkAssets st (l1 ++ l2) =
      createChunkAssets (createChunkAssets st l1) l2 := by
  induction l1 with
  | nil => intro st; rfl
  | cons c rest ih => intro st; simp only [List.cons_append, createChunkAssets]; exact ih _

theorem createChunkAssets_fresh (cs : List AChunk) :
    ∀ st : AState,
      (∀ c ∈ cs, WP.slook st.assets c.path = none) →
      (cs.map (fun c => c.path)).Nodup →
      createChunkAssets st cs =
        { assets := st.assets ++ cs.map (fun c => (c.path, c.source)),
          errors := st.errors,
          done := st.done ++ cs.map okChunk } := by
  induction cs with
  | nil =>
    intro st _ _
    cases st
    simp [createChunkAssets]
  | cons c rest ih =>
    intro st hfresh hnd
    have hc : WP.slook st.assets c.path = none := hfresh c (by simp)
    simp only [List.map_cons, List.nodup_cons] at hnd
    simp only [createChunkAssets, processChunk, hc]
    rw [ih _ ?fresh hnd.2]
    · simp [okChunk]
    case fresh =>
      intro c2 hc2
      rw [slook_append]
      have h2 : WP.slook st.assets c2.path = none := hfresh c2 (by simp [hc2])
      have hne : ¬(c.path = c2.path) := by
        intro h
        exact hnd.1 (h ▸ List.mem_map_of_mem (fun x => x.path) hc2)
      simp [h2, hne]


/-- C8: when a later chunk b resolves to the same output path as an earlier
chunk a (all other paths being distinct and absent from the asset map), the
run of createChunkAssets appends exactly one ChunkRenderError — for b — to
the build-wide errors list, keeps the earlier chunk's asset (the path still
maps to a's source), emits the assets of every other chunk including those
after b, and produces the file lists of all chunks except b (whose files
list stays empty). -/
theorem createChunkAssets_conflict (st0 : AState) (pre mid post : List AChunk)
    (a b : AChunk)
    (hpath : b.path = a.path)
    (hnd : (((pre ++ a :: mid) ++ post).map (fun c => c.path)).Nodup)
    (hfresh : ∀ c ∈ (pre ++ a :: mid) ++ post, WP.slook st0.assets c.path = none) :
    createChunkAssets st0 ((pre ++ a :: mid) ++ b :: post) =
      { assets := st0.assets ++ (pre ++ a :: mid).map (fun c => (c.path, c.source))
          ++ post.map (fun c => (c.path, c.source)),
        errors := st0.errors ++ [(b.debugId, b.path)],
        done := st0.done ++ (pre ++ a :: mid).map okChunk
          ++ [{ b with files := [] }] ++ post.map okChunk } ∧
    WP.slook (createChunkAssets st0 ((pre ++ a :: mid) ++ b :: post)).assets a.path
      = some a.source ∧
    (∀ c ∈ (pre ++ a :: mid) ++ post,
      WP.slook (createChunkAssets st0 ((pre ++ a :: mid) ++ b :: post)).assets c.path
        = some c.source) := by
  have hnd2 : ((pre ++ a :: mid).map (fun c => c.path)
      ++ post.map (fun c => c.path)).Nodup := by
    rw [← List.map_append]; exact hnd
  obtain ⟨hnd1, hndpost, hdisj⟩ := List.nodup_append.mp hnd2
  have hfresh1 : ∀ c ∈ pre ++ a :: mid, WP.slook st0.assets c.path = none :=
    fun c hc => hfresh c (List.mem_append.mpr (Or.inl hc))
  have hfreshpost : ∀ c ∈ post, WP.slook st0.assets c.path = none :=
    fun c hc => hfresh c (List.mem_append.mpr (Or.inr hc))
  have hrun1 : createChunkAssets st0 (pre ++ a :: mid) =
      { assets := st0.assets ++ (pre ++ a :: mid).map (fun c => (c.path, c.source)),
        errors := st0.errors,
        done := st0.done ++ (pre ++ a :: mid).map okChunk } :=
    createChunkAssets_fresh _ st0 hfresh1 hnd1
  have hamem : a ∈ pre ++ a :: mid := by simp
  have haset : WP.slook (st0.assets ++ (pre ++ a :: mid).map (fun c => (c.path, c.source)))
      a.path = some a.source := by
    rw [slook_append, hfresh1 a hamem]
    exact slook_pairs_mem _ a hamem hnd1
  have hbhit : WP.slook (st0.assets ++ (pre ++ a :: mid).map (fun c => (c.path, c.source)))
      b.path = some a.source := by rw [hpath]; exact haset
  have hpost2 : ∀ c ∈ post,
      WP.slook (st0.assets ++ (pre ++ a :: mid).map (fun x => (x.path, x.source)))
        c.path = none := by
    intro c hc
    rw [slook_append, hfreshpost c hc]
    refine slook_pairs_none _ _ ?_
    intro hmem
    exact (List.disjoint_right.mp hdisj) (List.mem_map_of_mem (fun x => x.path) hc) hmem
  have hstep : createChunkAssets
      ({ assets := st0.assets ++ (pre ++ a :: mid).map (fun c => (c.path, c.source)),
         errors := st0.errors,
         done := st0.done ++ (pre ++ a :: mid).map okChunk } : AState) (b :: post) =
      createChunkAssets
      ({ assets := st0.assets ++ (pre ++ a :: mid).map (fun c => (c.path, c.source)),
         errors := st0.errors ++ [(b.debugId, b.path)],
         done := (st0.done ++ (pre ++ a :: mid).map okChunk)
           ++ [{ b with files := [] }] } : AState) post := by
    simp only [createChunkAssets, processChunk, hbhit]
  have hrunall : createChunkAssets st0 ((pre ++ a :: mid) ++ b :: post) =
      { assets := st0.assets ++ (pre ++ a :: mid).map (fun c => (c.path, c.source))
          ++ post.map (fun c => (c.path, c.source)),
        errors := st0.errors ++ [(b.debugId, b.path)],
        done := st0.done ++ (pre ++ a :: mid).map okChunk
          ++ [{ b with files := [] }] ++ post.map okChunk } := by
    rw [createChunkAssets_append, hrun1, hstep,
      createChunkAssets_fresh post _ hpost2 hndpost]
  refine ⟨hrunall, ?_, ?_⟩
  · rw [hrunall]
    simp only []
    rw [List.append_assoc, slook_append, hfresh1 a hamem, slook_append]
    rw [slook_pairs_mem _ a hamem hnd1]
  · intro c hc
    rw [hrunall]
    simp only []
    rw [List.append_assoc, slook_append, hfresh c hc, slook_append]
    rcases List.mem_append.mp hc with h1 | h1
    · rw [slook_pairs_mem _ c h1 hnd1]
    · have hnotleft : c.path ∉ (pre ++ a :: mid).map (fun x => x.path) :=
        (List.disjoint_right.mp hdisj) (List.mem_map_of_mem (fun x => x.path) h1)
      rw [slook_pairs_none _ _ hnotleft]
      exact slook_pairs_mem _ c h1 hndpost

theorem createChunkAssets_conflict_witness :
    (let p : AChunk := { debugId := 1, path := "p.js", source := 11, files := [] }
     let a : AChunk := { debugId := 2, path := "a.js", source := 12, files := [] }
     let b : AChunk := { debugId := 3, path := "a.js", source := 13, files := [] }
     let q : AChunk := { debugId := 4, path := "q.js", source := 14, files := [] }
     let st0 : AState := { assets := [], errors := [], done := [] }
     ("a.js" : String) = a.path ∧
     createChunkAssets st0 (([p] ++ a :: []) ++ b :: [q]) =
      { assets := [("p.js", 11), ("a.js", 12), ("q.js", 14)],
        errors := [(3, "a.js")],
        done := [{ p with files := ["p.js"] }, { a with files := ["a.js"] },
                 { b with files := [] }, { q with files := ["q.js"] }] } ∧
     WP.slook (createChunkAssets st0 (([p] ++ a :: []) ++ b :: [q])).assets a.path
       = some a.source) := by
  refine ⟨rfl, ?_, ?_⟩
  · have h := (createChunkAssets_conflict
      { assets := [], errors := [], done := [] } [{ debugId := 1, path := "p.js", source := 11, files := [] }]
      [] [{ debugId := 4, path := "q.js", source := 14, files := [] }]
      { debugId := 2, path := "a.js", source := 12, files := [] }
      { debugId := 3, path := "a.js", source := 13, files := [] }
      rfl (by decide) (by decide)).1
    simpa [okChunk] using h
  · exact (createChunkAssets_conflict
      { assets := [], errors := [], done := [] } [{ debugId := 1, path := "p.js", source := 11, files := [] }]
      [] [{ debugId := 4, path := "q.js", source := 14, files := [] }]
      { debugId := 2, path := "a.js", source := 12, files := [] }
      { debugId := 3, path := "a.js", source := 13, files := [] }
      rfl (by decide) (by decide)).2.1

end Assets

/- ============================================================ -/
/- createHash (Compilation.js lines 1087-1134)                  -/
/- ============================================================ -/

namespace HashM

/-- Chunk as consumed by createHash: `hashData` is the data folded into the
chunk hash by `chunk.updateHash` and `tmplData` the chunk-dependent data
folded by `mainTemplate.updateHashForChunk` for runtime chunks (both target
lib/Chunk.js and lib/MainTemplate.js, which are not under src; modelled from
the spec, section 4.6: the chunk hash folds in the chunk's module
membership/content and its template rendering metadata).  `hash` and
`renderedHash` are the outputs written by the pass. -/
structure HChunk where
  hashData : List Nat
  tmplData : List Nat
  hasRuntime : Bool
  hash : Option (List Nat)
  renderedHash : Option (List Nat)
deriving Repr, DecidableEq

/-- Compilation state as read and written by createHash.  Hash values are
modelled as transcripts (lists of update tokens): `digest` is the transcript
itself and `substr(0, hashDigestLength)` is `take hashDigestLength` — this
keeps exactly the information-flow structure of the source while staying
pure.  `mainBase`, `chunkBase`, `moduleBase` are the template updateHash
contributions, `mainChunkExtra` / `chunkChunkExtra` the per-chunk template
contributions, `children` the child compilations' hash values. -/
structure HState where
  hashSalt : Option (List Nat)
  hashDigestLength : Nat
  mainBase : List Nat
  chunkBase : List Nat
  moduleBase : List Nat
  mainChunkExtra : List Nat
  chunkChunkExtra : List Nat
  children : List (List Nat)
  chunks : List HChunk
  fullHash : Option (List Nat)
  hash : Option (List Nat)
deriving Repr, DecidableEq

/-- Sort of the cloned chunk list (lines 1103-1115): the comparator orders
chunks without a runtime before chunks with one and returns 0 otherwise; a
stable sort on a boolean key is the stable partition. -/
def sortChunksForHash (cs : List HChunk) : List HChunk :=
  cs.filter (fun c => !c.hasRuntime) ++ cs.filter (fun c => c.hasRuntime)

/-- Transcript of one chunk hash (lines 1118-1127): optional salt, the
chunk's own updateHash data, then updateHashForChunk of the main template
(runtime chunks) or of the chunk template (non-runtime chunks); the
"chunk-hash" plugin hook has no registered observers in the core model. -/
def chunkHashOf (st : HState) (c : HChunk) : List Nat :=
  (match st.hashSalt with | some s => s | none => []) ++ c.hashData ++
  (if c.hasRuntime then st.mainChunkExtra ++ c.tmplData else st.chunkChunkExtra)

/-- Transcript of the full-build hash (lines 1092-1132): optional salt, the
three template updateHash contributions, every child compilation's hash, then
every chunk hash in sorted order (non-runtime chunks first). -/
def fullHashOf (st : HState) : List Nat :=
  (match st.hashSalt with | some s => s | none => []) ++ st.mainBase ++
  st.chunkBase ++ st.moduleBase ++ st.children.flatten ++
  ((sortChunksForHash st.chunks).map (chunkHashOf st)).flatten

/-- Per-chunk output of the pass (lines 1128-1130): chunk.hash is the digest
of its transcript, chunk.renderedHash its truncation. -/
def updOf (st : HState) (c : HChunk) : HChunk :=
  { c with hash := some (chunkHashOf st c),
           renderedHash := some ((chunkHashOf st c).take st.hashDigestLength) }

/-- Embedding of Compilation.createHash (lines 1087-1134): writes hash and
renderedHash onto every chunk (the sort operates on a clone, so this.chunks
keeps its order) and sets fullHash and its truncation `hash`. -/
def createHash (st : HState) : HState :=
  { st with
    chunks := st.chunks.map (updOf st),
    fullHash := some (fullHashOf st),
    hash := some ((fullHashOf st).take st.hashDigestLength) }

theorem chunkHashOf_stable (st : HState) (c : HChunk) :
    chunkHashOf (createHash st) (updOf st c) = chunkHashOf st c := rfl

theorem sortChunksForHash_map_updOf (st : HState) (cs : List HChunk) :
    sortChunksForHash (cs.map (updOf st)) = (sortChunksForHash cs).map (updOf st) := by
  have hfil : ∀ p : HChunk → Bool, (∀ c, p (updOf st c) = p c) →
      (cs.map (updOf st)).filter p = (cs.filter p).map (updOf st) := by
    intro p hp
    rw [List.filter_map]
    congr 1
    exact List.filter_congr (fun c _ => hp c)
  rw [sortChunksForHash, sortChunksForHash,
    hfil (fun c => !c.hasRuntime) (fun c => rfl),
    hfil (fun c => c.hasRuntime) (fun c => rfl), List.map_append]

theorem fullHashOf_stable (st : HState) :
    fullHashOf (createHash st) = fullHashOf st := by
  have hchunks : (createHash st).chunks = st.chunks.map (updOf st) := rfl
  have hmap : (sortChunksForHash ((createHash st).chunks)).map (chunkHashOf (createHash st))
      = (sortChunksForHash st.chunks).map (chunkHashOf st) := by
    rw [hchunks, sortChunksForHash_map_updOf, List.map_map]
    exact List.map_congr_left (fun c _ => chunkHashOf_stable st c)
  show (match (createHash st).hashSalt with | some s => s | none => []) ++
      (createHash st).mainBase ++ (createHash st).chunkBase ++
      (createHash st).moduleBase ++ (createHash st).children.flatten ++
      ((sortChunksForHash ((createHash st).chunks)).map (chunkHashOf (createHash st))).flatten
      = fullHashOf st
  rw [hmap]
  rfl

/-- C9: createHash is idempotent on an unchanged compilation — running it a
second time on the state produced by the first run (same chunks, modules,
templates, children and output options; only the hash output fields were
written) yields the identical fullHash and truncated hash, and identical hash
and renderedHash for every chunk.  Determinism itself is immediate since the
embedding is a pure function of the graph state. -/
theorem createHash_idempotent (st : HState) :
    (createHash (createHash st)).fullHash = (createHash st).fullHash ∧
    (createHash (createHash st)).hash = (createHash st).hash ∧
    (createHash (createHash st)).chunks.map (fun c => c.hash)
      = (createHash st).chunks.map (fun c => c.hash) ∧
    (createHash (createHash st)).chunks.map (fun c => c.renderedHash)
      = (createHash st).chunks.map (fun c => c.renderedHash) := by
  have hfull : fullHashOf (createHash st) = fullHashOf st := fullHashOf_stable st
  have hlen : (createHash st).hashDigestLength = st.hashDigestLength := rfl
  refine ⟨?_, ?_, ?_, ?_⟩
  · show some (fullHashOf (createHash st)) = some (fullHashOf st)
    rw [hfull]
  · show some ((fullHashOf (createHash st)).take (createHash st).hashDigestLength)
      = some ((fullHashOf st).take st.hashDigestLength)
    rw [hfull, hlen]
  · have hchunks : (createHash st).chunks = st.chunks.map (updOf st) := rfl
    show ((createHash st).chunks.map (updOf (createHash st))).map (fun c => c.hash)
      = (st.chunks.map (updOf st)).map (fun c => c.hash)
    rw [hchunks, List.map_map, List.map_map, List.map_map]
    refine List.map_congr_left (fun c _ => ?_)
    show some (chunkHashOf (createHash st) (updOf st c)) = some (chunkHashOf st c)
    rw [chunkHashOf_stable]
  · have hchunks : (createHash st).chunks = st.chunks.map (updOf st) := rfl
    show ((createHash st).chunks.map (updOf (createHash st))).map (fun c => c.renderedHash)
      = (st.chunks.map (updOf st)).map (fun c => c.renderedHash)
    rw [hchunks, List.map_map, List.map_map, List.map_map]
    refine List.map_congr_left (fun c _ => ?_)
    show some ((chunkHashOf (createHash st) (updOf st c)).take (createHash st).hashDigestLength)
      = some ((chunkHashOf st c).take st.hashDigestLength)
    rw [chunkHashOf_stable, hlen]

end HashM

/- ============================================================ -/
/- removeChunkFromDependencies (Compilation.js lines 870-900)   -/
/- and rebuildModule post-processing (lines 485-518)            -/
/- ============================================================ -/

namespace ChunkDeps

/-- Association-list lookup with Nat keys and arbitrary values (heap of
module/chunk objects keyed by object identity). -/
def nlook {α : Type} : List (Nat × α) → Nat → Option α
  | [], _ => none
  | (k, v) :: rest, m => if k = m then some v else nlook rest m

/-- Dependency record as read by the iteratorDependency closure: the resolved
target module (null until resolved) and the dependency's identity. -/
structure DepEdge where
  module : Option Nat
  depId : Nat

/-- Dependency block tree of a module: `chunks` is null until
processDependenciesBlockForChunk materializes the split-point chunk list. -/
inductive Block where
  | mk : Option (List Nat) → List DepEdge → List Block → Block

/-- Accessor for the materialized chunk list of a block. -/
def Block.chunks : Block → Option (List Nat)
  | .mk c _ _ => c

/-- Accessor for the dependency records of a block. -/
def Block.dependencies : Block → List DepEdge
  | .mk _ d _ => d

/-- Accessor for the nested blocks of a block. -/
def Block.blocks : Block → List Block
  | .mk _ _ b => b

/-- Module object fields read by removeChunkFromDependencies (`vars` embeds
the source's `variables` field, whose name is reserved in Lean). -/
structure MData where
  blocks : List Block
  dependencies : List DepEdge
  vars : List (List DepEdge)
  chunks : List Nat
  reasons : List (Nat × Nat)

/-- Chunk object fields touched by the pass: sub-chunks, parents, members. -/
structure CData where
  chunks : List Nat
  parents : List Nat
  modules : List Nat

/-- Heap of module and chunk objects keyed by object identity. -/
structure Graph where
  modules : List (Nat × MData)
  chunks : List (Nat × CData)

/-- Point update of a module object in the heap. -/
def updModule (g : Graph) (mid : Nat) (f : MData → MData) : Graph :=
  { g with modules := g.modules.map (fun p => if p.1 = mid then (p.1, f p.2) else p) }

/-- Point update of a chunk object in the heap. -/
def updChunk (g : Graph) (cid : Nat) (f : CData → CData) : Graph :=
  { g with chunks := g.chunks.map (fun p => if p.1 = cid then (p.1, f p.2) else p) }

/-- Modelled from the spec: `Module.hasReasonForChunk` (lib/Module.js is not
under src).  Spec section 4.4 reason tracking: a recorded (requesting module,
dependency) pair justifies membership in a chunk when the requesting module
is itself a member of that chunk. -/
def hasReasonForChunk (g : Graph) (md : MData) (cid : Nat) : Bool :=
  md.reasons.any (fun r =>
    match nlook g.modules r.1 with
    | some req => req.chunks.contains cid
    | none => false)

/-- Modelled from the spec: `Module.removeChunk` (lib/Module.js is not under
src): removes the chunk from the module's chunk set (and the module from the
chunk's member set), reporting whether the module had been a member. -/
def moduleRemoveChunk (g : Graph) (mid cid : Nat) : Bool × Graph :=
  match nlook g.modules mid with
  | none => (false, g)
  | some md =>
    if md.chunks.contains cid then
      (true,
       updChunk (updModule g mid (fun m => { m with chunks := m.chunks.erase cid }))
         cid (fun c => { c with modules := c.modules.erase mid }))
    else
      (false, g)

/-- Modelled from the spec: `chunk.removeChunk(blockChunk)` followed by
`blockChunk.removeParent(chunk)` (lib/Chunk.js is not under src): the
parent/child link between the two chunks is detached. -/
def detachChunkLink (g : Graph) (parent child : Nat) : Graph :=
  updChunk (updChunk g parent (fun c => { c with chunks := c.chunks.erase child }))
    child (fun c => { c with parents := c.parents.erase parent })

/-- First argument of removeChunkFromDependencies as the source actually uses
it: rebuildModule passes a Module (line 508); the recursive call at line 889
passes `chunks` — the JS Array `blocks[indexBlock].chunks` — instead of a
block, so the parameter is a union of the two shapes. -/
inductive BlockArg where
  | mod (mid : Nat)
  | arr (chunkIds : List Nat)

/-- Control points of the removeChunkFromDependencies recursion: the function
entry, the `block.blocks` loop (lines 882-891), the inner chunk loop (lines
884-890), the dependency iteration via iteratorDependency (lines 871-880 and
893-895), and the block-variable iteration (lines 897-899). -/
inductive RCall where
  | main (block : BlockArg) (cid : Nat)
  | blocksLoop (blocks : List Block) (cid : Nat)
  | chunksLoop (pending all : List Nat) (cid : Nat)
  | depsLoop (deps : List DepEdge) (cid : Nat)
  | varsLoop (vars : List (List DepEdge)) (cid : Nat)

/-- Embedding of removeChunkFromDependencies (lines 870-900), fuel-indexed.
Reading `block.blocks` on the Array passed by the recursive call (line 889)
yields `undefined`, so the subsequent `blocks.length` access throws — this is
the `.arr` case; likewise a block whose `chunks` field was never materialized
makes `chunks.length` throw.  For a module argument the three phases run in
source order: sub-chunk detach loop, dependency iteration, variable
iteration; a dependency's module that has no remaining reason for the chunk
and was a member is removed and recursed into. -/
def rcfdRun : Nat → Graph → RCall → Except String Graph
  | 0, _, _ => .error "out of fuel"
  | fuel + 1, g, call =>
    match call with
    | .main (.arr _) _ => .error "TypeError: block.blocks is undefined"
    | .main (.mod mid) cid =>
      match nlook g.modules mid with
      | none => .error "dangling module reference"
      | some md =>
        match rcfdRun fuel g (.blocksLoop md.blocks cid) with
        | .error e => .error e
        | .ok g1 =>
          match rcfdRun fuel g1 (.depsLoop md.dependencies cid) with
          | .error e => .error e
          | .ok g2 => rcfdRun fuel g2 (.varsLoop md.vars cid)
    | .blocksLoop [] _ => .ok g
    | .blocksLoop (b :: rest) cid =>
      match b.chunks with
      | none => .error "TypeError: chunks is undefined"
      | some cs =>
        match rcfdRun fuel g (.chunksLoop cs cs cid) with
        | .error e => .error e
        | .ok g1 => rcfdRun fuel g1 (.blocksLoop rest cid)
    | .chunksLoop [] _ _ => .ok g
    | .chunksLoop (blockChunk :: rest) all cid =>
      match rcfdRun fuel (detachChunkLink g cid blockChunk) (.main (.arr all) blockChunk) with
      | .error e => .error e
      | .ok g2 => rcfdRun fuel g2 (.chunksLoop rest all cid)
    | .depsLoop [] _ => .ok g
    | .depsLoop (d :: rest) cid =>
      match d.module with
      | none => rcfdRun fuel g (.depsLoop rest cid)
      | some dmid =>
        match nlook g.modules dmid with
        | none => .error "dangling module reference"
        | some dm =>
          if hasReasonForChunk g dm cid then
            rcfdRun fuel g (.depsLoop rest cid)
          else
            match moduleRemoveChunk g dmid cid with
            | (false, g1) => rcfdRun fuel g1 (.depsLoop rest cid)
            | (true, g1) =>
              match rcfdRun fuel g1 (.main (.mod dmid) cid) with
              | .error e => .error e
              | .ok g2 => rcfdRun fuel g2 (.depsLoop rest cid)
    | .varsLoop [] _ => .ok g
    | .varsLoop (v :: rest) cid =>
      match rcfdRun fuel g (.depsLoop v cid) with
      | .error e => .error e
      | .ok g1 => rcfdRun fuel g1 (.varsLoop rest cid)

/-- Entry point as called by rebuildModule (line 508). -/
def removeChunkFromDependencies (fuel : Nat) (g : Graph) (block : BlockArg)
    (cid : Nat) : Except String Graph :=
  rcfdRun fuel g (.main block cid)

/-- Dependency module 1 of a rebuilt module: it just lost its last reason for
chunk 10 and owns one dependency block whose split-point chunk 11 has been
materialized (as any sealed compilation leaves it). -/
def exGraph : Graph :=
  { modules := [(1, { blocks := [Block.mk (some [11]) [] []],
                      dependencies := [], vars := [],
                      chunks := [], reasons := [] })],
    chunks := [(10, { chunks := [11], parents := [], modules := [1] }),
               (11, { chunks := [], parents := [10], modules := [] })] }

/-- C3 (code bug): on the very scenario the claim describes — the last reason
justifying module 1's membership in chunk 10 was removed, so rebuildModule
calls removeChunkFromDependencies(module 1, chunk 10) — the recursion does
not detach the now-unjustified sub-chunk graph: the recursive call at line
889 passes the `chunks` Array where a block is expected, `block.blocks` is
undefined on an Array, and the loop header throws a TypeError. -/
theorem removeChunkFromDependencies_crashes_on_sub_chunks :
    removeChunkFromDependencies 10 exGraph (.mod 1) 10 =
      .error "TypeError: block.blocks is undefined" := rfl

end ChunkDeps


/- ============================================================ -/
/- assignDepth (Compilation.js lines 773-817), run per entry    -/
/- from seal (line 554)                                         -/
/- ============================================================ -/

namespace Depth

/-- Path predicate: module `m` is reachable from some entry in `es` in
exactly `k` dependency hops. -/
inductive HopsTo (g : WP.MGraph) (es : List Nat) : Nat → Nat → Prop where
  | entry {e : Nat} : e ∈ es → HopsTo g es e 0
  | step {m k m2 : Nat} : HopsTo g es m k → m2 ∈ WP.succs g m → HopsTo g es m2 (k + 1)

/-- Guard of assignDepthToModule (line 776): the task is a no-op when the
module already carries a depth not larger than the candidate. -/
def shouldSkip (dep : List (Nat × Nat)) (m c : Nat) : Bool :=
  match WP.alook dep m with
  | some d => decide (d ≤ c)
  | none => false

theorem shouldSkip_true {dep : List (Nat × Nat)} {m c : Nat}
    (h : shouldSkip dep m c = true) :
    ∃ d, WP.alook dep m = some d ∧ d ≤ c := by
  unfold shouldSkip at h
  match halook : WP.alook dep m with
  | some d =>
    rw [halook] at h
    exact ⟨d, rfl, of_decide_eq_true h⟩
  | none =>
    rw [halook] at h
    cases h

theorem shouldSkip_false {dep : List (Nat × Nat)} {m c : Nat}
    (h : shouldSkip dep m c = false) :
    ∀ d, WP.alook dep m = some d → c < d := by
  intro d hd
  unfold shouldSkip at h
  rw [hd] at h
  have := of_decide_eq_false h
  omega

/-- Embedding of the assignDepth work-stack loop (lines 773-817).  `dep` is
the depth assignment (newest binding shadows older ones — an overwrite of
`module.depth`), `queue` the pending (module, candidate depth) tasks with the
stack top at the head.  A popped task is skipped when the module already has
a depth not larger than the candidate (line 776); otherwise the depth is
written and one task per dependency target anywhere in the module's block
tree is pushed with candidate+1 (the synchronous assignDepthToDependencyBlock
walk; `reverse` mirrors pushes being popped last-in first-out).  The fuel
only bounds the number of loop iterations; `none` means it ran out. -/
def run (g : WP.MGraph) : Nat → List (Nat × Nat) → List (Nat × Nat) → Option (List (Nat × Nat))
  | 0, _, _ => none
  | _ + 1, dep, [] => some dep
  | fuel + 1, dep, (m, c) :: rest =>
    if shouldSkip dep m c then
      run g fuel dep rest
    else
      run g fuel ((m, c) :: dep)
        (((WP.succs g m).map (fun m2 => (m2, c + 1))).reverse ++ rest)

/-- Seal's depth pass (line 554): assignDepth(module) is run from every entry
module in order, with candidate 0 at the entry; depths persist across runs. -/
def runEntries (g : WP.MGraph) (fuel : Nat) :
    List Nat → List (Nat × Nat) → Option (List (Nat × Nat))
  | [], dep => some dep
  | e :: es, dep =>
    match run g fuel dep [(e, 0)] with
    | some dep2 => runEntries g fuel es dep2
    | none => none

theorem depth_run_inv (g : WP.MGraph) (es : List Nat) : ∀ (fuel : Nat) (dep queue dep' : List (Nat × Nat)),
    run g fuel dep queue = some dep' →
    (∀ m c, WP.alook dep m = some c → HopsTo g es m c) →
    (∀ mc ∈ queue, HopsTo g es mc.1 mc.2) →
    (∀ m c, WP.alook dep m = some c → ∀ m2 ∈ WP.succs g m,
      (∃ c2, WP.alook dep m2 = some c2 ∧ c2 ≤ c + 1) ∨
      (∃ c2, (m2, c2) ∈ queue ∧ c2 ≤ c + 1)) →
    (∀ m c, WP.alook dep' m = some c → HopsTo g es m c) ∧
    (∀ m c, WP.alook dep' m = some c → ∀ m2 ∈ WP.succs g m,
      ∃ c2, WP.alook dep' m2 = some c2 ∧ c2 ≤ c + 1) ∧
    (∀ m c, WP.alook dep m = some c → ∃ c2, WP.alook dep' m = some c2 ∧ c2 ≤ c) ∧
    (∀ m c, (m, c) ∈ queue → ∃ c2, WP.alook dep' m = some c2 ∧ c2 ≤ c) := by
  intro fuel
  induction fuel with
  | zero =>
    intro dep queue dep' hrun
    simp [run] at hrun
  | succ fuel ih =>
    intro dep queue dep' hrun hS hQ hC
    match hq : queue with
    | [] =>
      simp only [run, Option.some.injEq] at hrun
      subst hrun
      subst hq
      refine ⟨hS, ?_, ?_, ?_⟩
      · intro m c hm m2 hm2
        rcases hC m c hm m2 hm2 with ⟨c2, h1, h2⟩ | ⟨c2, h1, h2⟩
        · exact ⟨c2, h1, h2⟩
        · cases h1
      · intro m c hm
        exact ⟨c, hm, le_refl c⟩
      · intro m c hm
        cases hm
    | (m, c) :: rest =>
      subst hq
      have hQhead : HopsTo g es m c := hQ (m, c) (List.mem_cons_self _ _)
      have hQrest : ∀ mc ∈ rest, HopsTo g es mc.1 mc.2 :=
        fun mc hmc => hQ mc (List.mem_cons_of_mem _ hmc)
      simp only [run] at hrun
      by_cases hskip : shouldSkip dep m c = true
      · -- skip branch: the module already carries a depth ≤ candidate
        rw [if_pos hskip] at hrun
        obtain ⟨d, halook, hd⟩ := shouldSkip_true hskip
        have hC2 : ∀ m0 c0, WP.alook dep m0 = some c0 → ∀ m2 ∈ WP.succs g m0,
            (∃ c2, WP.alook dep m2 = some c2 ∧ c2 ≤ c0 + 1) ∨
            (∃ c2, (m2, c2) ∈ rest ∧ c2 ≤ c0 + 1) := by
          intro m0 c0 h0 m2 hm2
          rcases hC m0 c0 h0 m2 hm2 with ⟨c2, h1, h2⟩ | ⟨c2, h1, h2⟩
          · exact Or.inl ⟨c2, h1, h2⟩
          · rcases List.mem_cons.mp h1 with hhd | htl
            · have h3 : m2 = m ∧ c2 = c := by
                injection hhd with h3 h4
                exact ⟨h3, h4⟩
              refine Or.inl ⟨d, by rw [h3.1]; exact halook, ?_⟩
              have := h3.2 ▸ h2
              omega
            · exact Or.inr ⟨c2, htl, h2⟩
        obtain ⟨hS', hC', hP, hQF⟩ := ih _ _ _ hrun hS hQrest hC2
        refine ⟨hS', hC', hP, ?_⟩
        intro m0 c0 h0
        rcases List.mem_cons.mp h0 with hhd | htl
        · have h3 : m0 = m ∧ c0 = c := by
            injection hhd with h3 h4
            exact ⟨h3, h4⟩
          obtain ⟨c2, hc2, hc2le⟩ := hP m d halook
          rw [h3.1, h3.2]
          exact ⟨c2, hc2, by omega⟩
        · exact hQF m0 c0 htl
      · -- assign branch: overwrite with the strictly smaller candidate
        rw [if_neg hskip] at hrun
        have hlt : ∀ d0, WP.alook dep m = some d0 → c < d0 :=
          shouldSkip_false (Bool.not_eq_true _ ▸ hskip)
        have hmemPush : ∀ m2 ∈ WP.succs g m,
            (m2, c + 1) ∈ ((WP.succs g m).map (fun m2 => (m2, c + 1))).reverse ++ rest := by
          intro m2 hm2
          exact List.mem_append.mpr (Or.inl (List.mem_reverse.mpr
            (List.mem_map_of_mem _ hm2)))
        have hS2 : ∀ m0 c0, WP.alook ((m, c) :: dep) m0 = some c0 → HopsTo g es m0 c0 := by
          intro m0 c0 h0
          rw [WP.alook_cons] at h0
          by_cases hm0 : m = m0
          · rw [if_pos hm0] at h0
            cases h0
            exact hm0 ▸ hQhead
          · rw [if_neg hm0] at h0
            exact hS m0 c0 h0
        have hQ2 : ∀ mc ∈ ((WP.succs g m).map (fun m2 => (m2, c + 1))).reverse ++ rest,
            HopsTo g es mc.1 mc.2 := by
          intro mc hmc
          rcases List.mem_append.mp hmc with hin | hin
          · rcases List.mem_map.mp (List.mem_reverse.mp hin) with ⟨m2, hm2, hmc2⟩
            subst hmc2
            exact HopsTo.step hQhead hm2
          · exact hQrest mc hin
        have hC2 : ∀ m0 c0, WP.alook ((m, c) :: dep) m0 = some c0 →
            ∀ m2 ∈ WP.succs g m0,
            (∃ c2, WP.alook ((m, c) :: dep) m2 = some c2 ∧ c2 ≤ c0 + 1) ∨
            (∃ c2, (m2, c2) ∈ ((WP.succs g m).map (fun m2 => (m2, c + 1))).reverse ++ rest ∧
              c2 ≤ c0 + 1) := by
          intro m0 c0 h0 m2 hm2
          rw [WP.alook_cons] at h0
          by_cases hm0 : m = m0
          · rw [if_pos hm0] at h0
            cases h0
            exact Or.inr ⟨c + 1, hmemPush m2 (hm0 ▸ hm2), le_refl _⟩
          · rw [if_neg hm0] at h0
            rcases hC m0 c0 h0 m2 hm2 with ⟨c2, h1, h2⟩ | ⟨c2, h1, h2⟩
            · by_cases hm2m : m = m2
              · refine Or.inl ⟨c, ?_, ?_⟩
                · rw [WP.alook_cons, if_pos hm2m]
                · subst hm2m
                  have := hlt c2 h1
                  omega
              · exact Or.inl ⟨c2, by rw [WP.alook_cons, if_neg hm2m]; exact h1, h2⟩
            · rcases List.mem_cons.mp h1 with hhd | htl
              · have h3 : m2 = m ∧ c2 = c := by
                  injection hhd with h3 h4
                  exact ⟨h3, h4⟩
                refine Or.inl ⟨c, ?_, ?_⟩
                · rw [h3.1, WP.alook_cons, if_pos rfl]
                · rw [← h3.2]; exact h2
              · exact Or.inr ⟨c2, List.mem_append.mpr (Or.inr htl), h2⟩
        obtain ⟨hS', hC', hP, hQF⟩ := ih _ _ _ hrun hS2 hQ2 hC2
        refine ⟨hS', hC', ?_, ?_⟩
        · intro m0 c0 h0
          by_cases hm0 : m = m0
          · subst hm0
            have hlt0 := hlt c0 h0
            obtain ⟨c2, hc2, hc2le⟩ := hP m c (by rw [WP.alook_cons, if_pos rfl])
            exact ⟨c2, hc2, by omega⟩
          · exact hP m0 c0 (by rw [WP.alook_cons, if_neg hm0]; exact h0)
        · intro m0 c0 h0
          rcases List.mem_cons.mp h0 with hhd | htl
          · have h3 : m0 = m ∧ c0 = c := by
              injection hhd with h3 h4
              exact ⟨h3, h4⟩
            obtain ⟨c2, hc2, hc2le⟩ := hP m c (by rw [WP.alook_cons, if_pos rfl])
            rw [h3.1, h3.2]
            exact ⟨c2, hc2, hc2le⟩
          · exact hQF m0 c0 (List.mem_append.mpr (Or.inr htl))

theorem depth_runEntries_inv (g : WP.MGraph) (es_all : List Nat) (fuel : Nat) :
    ∀ (rem : List Nat) (dep dep' : List (Nat × Nat)),
    (∀ e ∈ rem, e ∈ es_all) →
    runEntries g fuel rem dep = some dep' →
    (∀ m c, WP.alook dep m = some c → HopsTo g es_all m c) →
    (∀ m c, WP.alook dep m = some c → ∀ m2 ∈ WP.succs g m,
      ∃ c2, WP.alook dep m2 = some c2 ∧ c2 ≤ c + 1) →
    (∀ m c, WP.alook dep' m = some c → HopsTo g es_all m c) ∧
    (∀ m c, WP.alook dep' m = some c → ∀ m2 ∈ WP.succs g m,
      ∃ c2, WP.alook dep' m2 = some c2 ∧ c2 ≤ c + 1) ∧
    (∀ m c, WP.alook dep m = some c → ∃ c2, WP.alook dep' m = some c2 ∧ c2 ≤ c) ∧
    (∀ e ∈ rem, WP.alook dep' e = some 0) := by
  intro rem
  induction rem with
  | nil =>
    intro dep dep' _ hrun hS hC
    simp only [runEntries, Option.some.injEq] at hrun
    subst hrun
    refine ⟨hS, hC, ?_, ?_⟩
    · intro m c hm
      exact ⟨c, hm, le_refl c⟩
    · intro e he
      cases he
  | cons e rem2 ih =>
    intro dep dep' hsub hrun hS hC
    simp only [runEntries] at hrun
    match hr : run g fuel dep [(e, 0)] with
    | none => rw [hr] at hrun; cases hrun
    | some dep2 =>
      rw [hr] at hrun
      have hQ1 : ∀ mc ∈ ([(e, 0)] : List (Nat × Nat)), HopsTo g es_all mc.1 mc.2 := by
        intro mc hmc
        rcases List.mem_singleton.mp hmc with rfl
        exact HopsTo.entry (hsub e (List.mem_cons_self _ _))
      have hC1 : ∀ m c, WP.alook dep m = some c → ∀ m2 ∈ WP.succs g m,
          (∃ c2, WP.alook dep m2 = some c2 ∧ c2 ≤ c + 1) ∨
          (∃ c2, (m2, c2) ∈ ([(e, 0)] : List (Nat × Nat)) ∧ c2 ≤ c + 1) :=
        fun m c hm m2 hm2 => Or.inl (hC m c hm m2 hm2)
      obtain ⟨hS2, hC2, hP2, hQF2⟩ := depth_run_inv g es_all fuel dep [(e, 0)] dep2 hr hS hQ1 hC1
      obtain ⟨c2, hc2, hc2le⟩ := hQF2 e 0 (List.mem_singleton.mpr rfl)
      have hc20 : c2 = 0 := Nat.le_zero.mp hc2le
      subst hc20
      obtain ⟨hS', hC', hP', hdone'⟩ := ih dep2 dep'
        (fun e2 he2 => hsub e2 (List.mem_cons_of_mem _ he2)) hrun hS2 hC2
      refine ⟨hS', hC', ?_, ?_⟩
      · intro m c hm
        obtain ⟨ca, hca, hcale⟩ := hP2 m c hm
        obtain ⟨cb, hcb, hcble⟩ := hP' m ca hca
        exact ⟨cb, hcb, by omega⟩
      · intro e2 he2
        rcases List.mem_cons.mp he2 with rfl | htl
        · obtain ⟨cb, hcb, hcble⟩ := hP' e2 0 hc2
          have : cb = 0 := Nat.le_zero.mp hcble
          subst this
          exact hcb
        · exact hdone' e2 htl

/-- C2: after assignDepth has been run from every entry module (as seal does),
every reachable module's recorded depth equals the minimum number of
dependency hops from any entry module to it: for every path of length k to a
module m, the recorded depth c satisfies c ≤ k, and c is itself the length of
some path — so the recorded value is exactly the minimum over all paths, even
when several paths of different lengths reach m.  The run hypothesis says the
work-stack loop drained within the given fuel. -/
theorem assignDepth_minimal (g : WP.MGraph) (fuel : Nat) (es : List Nat)
    (dep' : List (Nat × Nat))
    (hrun : runEntries g fuel es [] = some dep') :
    ∀ m k, HopsTo g es m k →
      ∃ c, WP.alook dep' m = some c ∧ c ≤ k ∧ HopsTo g es m c := by
  obtain ⟨hS', hC', hP', hdone⟩ := depth_runEntries_inv g es fuel es [] dep'
    (fun e he => he) hrun
    (by intro m c h; cases h)
    (by intro m c h; cases h)
  intro m k hk
  induction hk with
  | entry he => exact ⟨0, hdone _ he, le_refl 0, HopsTo.entry he⟩
  | step hm hsucc ih =>
    obtain ⟨c, hc, hck, hcH⟩ := ih
    obtain ⟨c2, hc2, hc2le⟩ := hC' _ c hc _ hsucc
    exact ⟨c2, hc2, by omega, hS' _ c2 hc2⟩

/-- Diamond graph of the claim: entry 0 with dependencies A=1 and C=2, where
A also depends on C — so C is reachable in 2 hops through A and in 1 hop
directly. -/
def gExD : WP.MGraph := { n := 3, succ := [[1, 2], [2], []] }

theorem assignDepth_minimal_witness :
    runEntries gExD 20 [0] [] = some [(1, 1), (2, 1), (0, 0)] ∧
    HopsTo gExD [0] 2 2 ∧
    (∃ c, WP.alook [(1, 1), (2, 1), (0, 0)] 2 = some c ∧ c ≤ 2 ∧ HopsTo gExD [0] 2 c) ∧
    WP.alook [(1, 1), (2, 1), (0, 0)] 2 = some 1 := by
  have h0 : HopsTo gExD [0] 0 0 := HopsTo.entry (by decide)
  have h1 : HopsTo gExD [0] 1 1 := HopsTo.step h0 (by decide)
  have hh : HopsTo gExD [0] 2 2 := HopsTo.step h1 (by decide)
  exact ⟨by decide, hh,
    assignDepth_minimal gExD 20 [0] [(1, 1), (2, 1), (0, 0)] (by decide) 2 2 hh,
    by decide⟩

end Depth

/- ============================================================ -/
/- assignIndex (Compilation.js lines 706-771), run per entry    -/
/- from seal (lines 542-543, 553)                               -/
/- ============================================================ -/

namespace Indexer

/-- Reachability from the entry modules along dependency edges. -/
inductive Reach (g : WP.MGraph) (es : List Nat) : Nat → Prop where
  | entry {e : Nat} : e ∈ es → Reach g es e
  | step {m m2 : Nat} : Reach g es m → m2 ∈ WP.succs g m → Reach g es m2

/-- Tasks of the assignIndex work-stack: `enter m` is assignIndexToModule
(pre-order entry, line 717), `post m` the delayed index2 assignment closure
pushed on entry (line 723).  The dependency / block iteration closures only
shuttle these two task kinds and are flattened away. -/
inductive ITask where
  | enter (m : Nat)
  | post (m : Nat)
deriving Repr, DecidableEq

/-- Module of a task. -/
def ITask.tmod : ITask → Nat
  | .enter m => m
  | .post m => m

/-- Indexing state: the index and index2 assignments, the two counters
nextFreeModuleIndex / nextFreeModuleIndex2, and two ghost write logs (one
entry per executed assignment; they record nothing the real state does not
already determine and never influence control flow). -/
structure St where
  idx : List (Nat × Nat)
  idx2 : List (Nat × Nat)
  c1 : Nat
  c2 : Nat
  w1 : List Nat
  w2 : List Nat
deriving Repr, DecidableEq

/-- Embedding of the assignIndex work-stack loop (lines 706-771) with the
queue passed separately (head = stack top).  Entering an already-indexed
module is a no-op (line 719); entering a fresh module assigns
nextFreeModuleIndex (line 720), schedules the delayed index2 assignment
behind the module's dependency tasks (line 723; the source pushes the
index2 closure first and the dependency tasks in reverse order, so the
stack pops the dependencies in forward order before the index2 closure),
and enqueues one enter task per dependency target in the module's block
tree.  A popped index2 closure assigns nextFreeModuleIndex2 unconditionally
(line 723). -/
def run (g : WP.MGraph) : Nat → St → List ITask → Option St
  | 0, _, _ => none
  | _ + 1, s, [] => some s
  | fuel + 1, s, .enter m :: rest =>
    if (WP.alook s.idx m).isSome then
      run g fuel s rest
    else
      run g fuel
        { s with idx := (m, s.c1) :: s.idx, c1 := s.c1 + 1, w1 := m :: s.w1 }
        ((WP.succs g m).map ITask.enter ++ ITask.post m :: rest)
  | fuel + 1, s, .post m :: rest =>
    run g fuel
      { s with idx2 := (m, s.c2) :: s.idx2, c2 := s.c2 + 1, w2 := m :: s.w2 }
      rest

/-- Seal's index pass (lines 542-543, 553): counters start at 0 and
assignIndex(module) is run to completion for every entry module in order;
indices persist across the per-entry runs. -/
def runEntries (g : WP.MGraph) (fuel : Nat) : List Nat → St → Option St
  | [], s => some s
  | e :: es, s =>
    match run g fuel s [ITask.enter e] with
    | some s2 => runEntries g fuel es s2
    | none => none

/-- Initial state of the seal pass: no module carries an index and both
counters are zero. -/
def initSt : St := { idx := [], idx2 := [], c1 := 0, c2 := 0, w1 := [], w2 := [] }

/-- Invariant of the assignIndex loop, over the state and pending queue. -/
structure Inv (g : WP.MGraph) (es : List Nat) (s : St) (queue : List ITask) : Prop where
  range1 : ∀ m v, WP.alook s.idx m = some v → v < s.c1
  surj1 : ∀ v, v < s.c1 → ∃ m, WP.alook s.idx m = some v
  inj1 : ∀ m m2 v, WP.alook s.idx m = some v → WP.alook s.idx m2 = some v → m = m2
  range2 : ∀ m v, WP.alook s.idx2 m = some v → v < s.c2
  surj2 : ∀ v, v < s.c2 → ∃ m, WP.alook s.idx2 m = some v
  inj2 : ∀ m m2 v, WP.alook s.idx2 m = some v → WP.alook s.idx2 m2 = some v → m = m2
  wcount1 : ∀ m, s.w1.count m = (if (WP.alook s.idx m).isSome then 1 else 0)
  wcount2 : ∀ m, s.w2.count m = (if (WP.alook s.idx2 m).isSome then 1 else 0)
  postAcc : ∀ m, queue.count (ITask.post m) + s.w2.count m = s.w1.count m
  len1 : s.c1 = s.w1.length
  len2 : s.c2 = s.w2.length
  reach1 : ∀ m, (WP.alook s.idx m).isSome → Reach g es m ∧ m < g.n
  reachQ : ∀ t ∈ queue, Reach g es t.tmod ∧ t.tmod < g.n
  closure : ∀ m, (WP.alook s.idx m).isSome → ∀ m2 ∈ WP.succs g m,
    (WP.alook s.idx m2).isSome ∨ ITask.enter m2 ∈ queue

theorem alook_isSome_cons (k v m : Nat) (l : List (Nat × Nat))
    (h : (WP.alook l m).isSome = true) : (WP.alook ((k, v) :: l) m).isSome = true := by
  by_cases hk : k = m <;> simp [hk, h]

theorem count_post_cons_enter (m m0 : Nat) (rest : List ITask) :
    (ITask.enter m :: rest).count (ITask.post m0) = rest.count (ITask.post m0) := by
  simp [List.count_cons]

theorem count_post_map_enter (l : List Nat) (m : Nat) :
    (l.map ITask.enter).count (ITask.post m) = 0 := by
  rw [List.count_eq_zero]
  intro hmem
  rcases List.mem_map.mp hmem with ⟨x, _, hx⟩
  cases hx

theorem count_post_cons_post (m m0 : Nat) (rest : List ITask) :
    (ITask.post m :: rest).count (ITask.post m0) =
      rest.count (ITask.post m0) + (if m0 = m then 1 else 0) := by
  by_cases h : m0 = m <;> simp [List.count_cons, h]

theorem index_run_inv (g : WP.MGraph) (es : List Nat)
    (hwf : ∀ m m2, m2 ∈ WP.succs g m → m2 < g.n) :
    ∀ (fuel : Nat) (s : St) (queue : List ITask) (s' : St),
    run g fuel s queue = some s' →
    Inv g es s queue →
    Inv g es s' [] ∧
    (∀ m, (WP.alook s.idx m).isSome → (WP.alook s'.idx m).isSome) ∧
    (∀ m, ITask.enter m ∈ queue → (WP.alook s'.idx m).isSome) := by
  intro fuel
  induction fuel with
  | zero =>
    intro s queue s' hrun
    simp [run] at hrun
  | succ fuel ih =>
    intro s queue s' hrun hinv
    match hq : queue with
    | [] =>
      simp only [run, Option.some.injEq] at hrun
      subst hrun
      subst hq
      exact ⟨hinv, fun m h => h, fun m h => absurd h (List.not_mem_nil _)⟩
    | ITask.enter m :: rest =>
      subst hq
      simp only [run] at hrun
      have hMreach : Reach g es m ∧ m < g.n :=
        hinv.reachQ (ITask.enter m) (List.mem_cons_self _ _)
      by_cases hsome : (WP.alook s.idx m).isSome = true
      · -- module already indexed: the task is a no-op
        rw [if_pos hsome] at hrun
        have hinv2 : Inv g es s rest :=
          { range1 := hinv.range1, surj1 := hinv.surj1, inj1 := hinv.inj1,
            range2 := hinv.range2, surj2 := hinv.surj2, inj2 := hinv.inj2,
            wcount1 := hinv.wcount1, wcount2 := hinv.wcount2,
            postAcc := fun m0 => by
              have := hinv.postAcc m0
              rwa [count_post_cons_enter] at this,
            len1 := hinv.len1, len2 := hinv.len2,
            reach1 := hinv.reach1,
            reachQ := fun t ht => hinv.reachQ t (List.mem_cons_of_mem _ ht),
            closure := fun m0 h0 m2 hm2 => by
              rcases hinv.closure m0 h0 m2 hm2 with hl | hr
              · exact Or.inl hl
              · rcases List.mem_cons.mp hr with hhd | htl
                · have hm2m : m2 = m := by injection hhd
                  exact Or.inl (hm2m ▸ hsome)
                · exact Or.inr htl }
        obtain ⟨hinv', hpers, hdone⟩ := ih s rest s' hrun hinv2
        refine ⟨hinv', hpers, ?_⟩
        intro m0 h0
        rcases List.mem_cons.mp h0 with hhd | htl
        · have hm0 : m0 = m := by injection hhd
          exact hpers m0 (hm0 ▸ hsome)
        · exact hdone m0 htl
      · -- fresh module: index assigned, index2 scheduled, dependencies pushed
        rw [if_neg hsome] at hrun
        have halook : WP.alook s.idx m = none := by
          cases hl : WP.alook s.idx m with
          | none => rfl
          | some v => rw [hl] at hsome; simp at hsome
        have hw1zero : s.w1.count m = 0 := by
          have := hinv.wcount1 m
          rwa [halook, if_neg (by simp)] at this
        have hrestpost : rest.count (ITask.post m) + s.w2.count m = 0 := by
          have := hinv.postAcc m
          rw [count_post_cons_enter, hw1zero] at this
          omega
        have hinv2 : Inv g es
            { s with idx := (m, s.c1) :: s.idx, c1 := s.c1 + 1, w1 := m :: s.w1 }
            ((WP.succs g m).map ITask.enter ++ ITask.post m :: rest) :=
          { range1 := fun m0 v h0 => by
              dsimp only at *
              rw [WP.alook_cons] at h0
              by_cases hm0 : m = m0
              · rw [if_pos hm0] at h0
                injection h0 with h1
                omega
              · rw [if_neg hm0] at h0
                have := hinv.range1 m0 v h0
                omega,
            surj1 := fun v hv => by
              dsimp only at *
              by_cases hvc : v = s.c1
              · exact ⟨m, by rw [WP.alook_cons, if_pos rfl, hvc]⟩
              · have hvlt : v < s.c1 := by omega
                obtain ⟨m0, hm0⟩ := hinv.surj1 v hvlt
                refine ⟨m0, ?_⟩
                rw [WP.alook_cons, if_neg ?_]
                · exact hm0
                · intro heq
                  rw [← heq] at hm0
                  rw [halook] at hm0
                  exact Option.noConfusion hm0,
            inj1 := fun m0 m2 v h0 h2 => by
              dsimp only at *
              rw [WP.alook_cons] at h0 h2
              by_cases hm0 : m = m0 <;> by_cases hm2 : m = m2
              · rw [← hm0, ← hm2]
              · rw [if_pos hm0] at h0
                rw [if_neg hm2] at h2
                injection h0 with h1
                rw [← h1] at h2
                have := hinv.range1 m2 s.c1 h2
                omega
              · rw [if_neg hm0] at h0
                rw [if_pos hm2] at h2
                injection h2 with h1
                rw [← h1] at h0
                have := hinv.range1 m0 s.c1 h0
                omega
              · rw [if_neg hm0] at h0
                rw [if_neg hm2] at h2
                exact hinv.inj1 m0 m2 v h0 h2,
            range2 := hinv.range2, surj2 := hinv.surj2, inj2 := hinv.inj2,
            wcount1 := fun m0 => by
              dsimp only at *
              by_cases hm0 : m0 = m
              · subst hm0
                rw [List.count_cons_self, hw1zero, WP.alook_cons, if_pos rfl]
                simp
              · rw [List.count_cons_of_ne hm0]
                have hlk : WP.alook ((m, s.c1) :: s.idx) m0 = WP.alook s.idx m0 := by
                  rw [WP.alook_cons, if_neg (fun h => hm0 h.symm)]
                rw [hlk]
                exact hinv.wcount1 m0,
            wcount2 := hinv.wcount2,
            postAcc := fun m0 => by
              dsimp only at *
              rw [List.count_append, count_post_map_enter, count_post_cons_post]
              by_cases hm0 : m0 = m
              · subst hm0
                rw [List.count_cons_self, hw1zero, if_pos rfl]
                omega
              · rw [List.count_cons_of_ne hm0, if_neg hm0]
                have := hinv.postAcc m0
                rw [count_post_cons_enter] at this
                omega,
            len1 := by simp [hinv.len1],
            len2 := hinv.len2,
            reach1 := fun m0 h0 => by
              dsimp only at *
              by_cases hm0 : m = m0
              · exact hm0 ▸ hMreach
              · refine hinv.reach1 m0 ?_
                rw [WP.alook_cons, if_neg hm0] at h0
                exact h0,
            reachQ := fun t ht => by
              rcases List.mem_append.mp ht with hin | hin
              · rcases List.mem_map.mp hin with ⟨m2, hm2, hteq⟩
                subst hteq
                exact ⟨Reach.step hMreach.1 hm2, hwf m m2 hm2⟩
              · rcases List.mem_cons.mp hin with hhd | htl
                · subst hhd
                  exact hMreach
                · exact hinv.reachQ t (List.mem_cons_of_mem _ htl),
            closure := fun m0 h0 m2 hm2 => by
              dsimp only at *
              by_cases hm0 : m = m0
              · subst hm0
                exact Or.inr (List.mem_append.mpr (Or.inl
                  (List.mem_map_of_mem ITask.enter hm2)))
              · have h0' : (WP.alook s.idx m0).isSome = true := by
                  rw [WP.alook_cons, if_neg hm0] at h0
                  exact h0
                rcases hinv.closure m0 h0' m2 hm2 with hl | hr
                · exact Or.inl (alook_isSome_cons m s.c1 m2 s.idx hl)
                · rcases List.mem_cons.mp hr with hhd | htl
                  · have hm2m : m2 = m := by injection hhd
                    subst hm2m
                    exact Or.inl (by rw [WP.alook_cons, if_pos rfl]; rfl)
                  · exact Or.inr (List.mem_append.mpr (Or.inr
                      (List.mem_cons_of_mem _ htl))) }
        obtain ⟨hinv', hpers, hdone⟩ := ih _ _ s' hrun hinv2
        refine ⟨hinv', ?_, ?_⟩
        · intro m0 h0
          exact hpers m0 (alook_isSome_cons m s.c1 m0 s.idx h0)
        · intro m0 h0
          rcases List.mem_cons.mp h0 with hhd | htl
          · have hm0 : m0 = m := by injection hhd
            subst hm0
            exact hpers m0 (by rw [WP.alook_cons, if_pos rfl]; rfl)
          · exact hdone m0 (List.mem_append.mpr (Or.inr (List.mem_cons_of_mem _ htl)))
    | ITask.post m :: rest =>
      subst hq
      simp only [run] at hrun
      have hMreach : Reach g es m ∧ m < g.n :=
        hinv.reachQ (ITask.post m) (List.mem_cons_self _ _)
      -- the pending post task forces: index2 still unset, write counts pinned
      have hw1le : s.w1.count m ≤ 1 := by
        have := hinv.wcount1 m
        by_cases h : (WP.alook s.idx m).isSome = true <;> simp [h] at this <;> omega
      have hpinned : rest.count (ITask.post m) = 0 ∧ s.w2.count m = 0 ∧
          s.w1.count m = 1 := by
        have := hinv.postAcc m
        rw [count_post_cons_post, if_pos rfl] at this
        omega
      have h2none : WP.alook s.idx2 m = none := by
        have := hinv.wcount2 m
        rw [hpinned.2.1] at this
        cases hl : WP.alook s.idx2 m with
        | none => rfl
        | some v => rw [hl] at this; simp at this
      have hinv2 : Inv g es
          { s with idx2 := (m, s.c2) :: s.idx2, c2 := s.c2 + 1, w2 := m :: s.w2 }
          rest :=
        { range1 := hinv.range1, surj1 := hinv.surj1, inj1 := hinv.inj1,
          range2 := fun m0 v h0 => by
            dsimp only at *
            rw [WP.alook_cons] at h0
            by_cases hm0 : m = m0
            · rw [if_pos hm0] at h0
              injection h0 with h1
              omega
            · rw [if_neg hm0] at h0
              have := hinv.range2 m0 v h0
              omega,
          surj2 := fun v hv => by
            dsimp only at *
            by_cases hvc : v = s.c2
            · exact ⟨m, by rw [WP.alook_cons, if_pos rfl, hvc]⟩
            · have hvlt : v < s.c2 := by omega
              obtain ⟨m0, hm0⟩ := hinv.surj2 v hvlt
              refine ⟨m0, ?_⟩
              rw [WP.alook_cons, if_neg ?_]
              · exact hm0
              · intro heq
                rw [← heq] at hm0
                rw [h2none] at hm0
                exact Option.noConfusion hm0,
          inj2 := fun m0 m2 v h0 h2 => by
            dsimp only at *
            rw [WP.alook_cons] at h0 h2
            by_cases hm0 : m = m0 <;> by_cases hm2 : m = m2
            · rw [← hm0, ← hm2]
            · rw [if_pos hm0] at h0
              rw [if_neg hm2] at h2
              injection h0 with h1
              rw [← h1] at h2
              have := hinv.range2 m2 s.c2 h2
              omega
            · rw [if_neg hm0] at h0
              rw [if_pos hm2] at h2
              injection h2 with h1
              rw [← h1] at h0
              have := hinv.range2 m0 s.c2 h0
              omega
            · rw [if_neg hm0] at h0
              rw [if_neg hm2] at h2
              exact hinv.inj2 m0 m2 v h0 h2,
          wcount1 := hinv.wcount1,
          wcount2 := fun m0 => by
            dsimp only at *
            by_cases hm0 : m0 = m
            · subst hm0
              rw [List.count_cons_self, hpinned.2.1, WP.alook_cons, if_pos rfl]
              simp
            · rw [List.count_cons_of_ne hm0]
              have hlk : WP.alook ((m, s.c2) :: s.idx2) m0 = WP.alook s.idx2 m0 := by
                rw [WP.alook_cons, if_neg (fun h => hm0 h.symm)]
              rw [hlk]
              exact hinv.wcount2 m0,
          postAcc := fun m0 => by
            dsimp only at *
            by_cases hm0 : m0 = m
            · subst hm0
              rw [hpinned.1, List.count_cons_self, hpinned.2.1, hpinned.2.2]
            · rw [List.count_cons_of_ne hm0]
              have := hinv.postAcc m0
              rw [count_post_cons_post, if_neg hm0] at this
              omega,
          len1 := hinv.len1,
          len2 := by simp [hinv.len2],
          reach1 := hinv.reach1,
          reachQ := fun t ht => hinv.reachQ t (List.mem_cons_of_mem _ ht),
          closure := fun m0 h0 m2 hm2 => by
            rcases hinv.closure m0 h0 m2 hm2 with hl | hr
            · exact Or.inl hl
            · rcases List.mem_cons.mp hr with hhd | htl
              · cases hhd
              · exact Or.inr htl }
      obtain ⟨hinv', hpers, hdone⟩ := ih _ _ s' hrun hinv2
      refine ⟨hinv', hpers, ?_⟩
      intro m0 h0
      rcases List.mem_cons.mp h0 with hhd | htl
      · cases hhd
      · exact hdone m0 htl

theorem index_runEntries_inv (g : WP.MGraph) (es_all : List Nat)
    (hwf : ∀ m m2, m2 ∈ WP.succs g m → m2 < g.n)
    (hes : ∀ e ∈ es_all, e < g.n) (fuel : Nat) :
    ∀ (rem : List Nat) (s s' : St),
    (∀ e ∈ rem, e ∈ es_all) →
    runEntries g fuel rem s = some s' →
    Inv g es_all s [] →
    Inv g es_all s' [] ∧
    (∀ m, (WP.alook s.idx m).isSome → (WP.alook s'.idx m).isSome) ∧
    (∀ e ∈ rem, (WP.alook s'.idx e).isSome) := by
  intro rem
  induction rem with
  | nil =>
    intro s s' _ hrun hinv
    simp only [runEntries, Option.some.injEq] at hrun
    subst hrun
    exact ⟨hinv, fun m h => h, fun e he => absurd he (List.not_mem_nil _)⟩
  | cons e rem2 ih =>
    intro s s' hsub hrun hinv
    simp only [runEntries] at hrun
    match hr : run g fuel s [ITask.enter e] with
    | none => rw [hr] at hrun; cases hrun
    | some s2 =>
      rw [hr] at hrun
      have hinvq : Inv g es_all s [ITask.enter e] :=
        { range1 := hinv.range1, surj1 := hinv.surj1, inj1 := hinv.inj1,
          range2 := hinv.range2, surj2 := hinv.surj2, inj2 := hinv.inj2,
          wcount1 := hinv.wcount1, wcount2 := hinv.wcount2,
          postAcc := fun m0 => by
            have := hinv.postAcc m0
            simpa [List.count_cons] using this,
          len1 := hinv.len1, len2 := hinv.len2,
          reach1 := hinv.reach1,
          reachQ := fun t ht => by
            rcases List.mem_singleton.mp ht with rfl
            exact ⟨Reach.entry (hsub e (List.mem_cons_self _ _)),
              hes e (hsub e (List.mem_cons_self _ _))⟩,
          closure := fun m0 h0 m2 hm2 => by
            rcases hinv.closure m0 h0 m2 hm2 with hl | hr2
            · exact Or.inl hl
            · exact absurd hr2 (List.not_mem_nil _) }
      obtain ⟨hinv2, hpers2, hdone2⟩ := index_run_inv g es_all hwf fuel s [ITask.enter e] s2 hr hinvq
      obtain ⟨hinv', hpers', hdone'⟩ := ih s2 s'
        (fun e2 he2 => hsub e2 (List.mem_cons_of_mem _ he2)) hrun hinv2
      refine ⟨hinv', fun m h => hpers' m (hpers2 m h), ?_⟩
      intro e2 he2
      rcases List.mem_cons.mp he2 with rfl | htl
      · exact hpers' e2 (hdone2 e2 (List.mem_singleton.mpr rfl))
      · exact hdone' e2 htl

theorem filterMap_length_eq {α β : Type} (f : α → Option β) :
    ∀ l : List α, (∀ a ∈ l, (f a).isSome = true) → (l.filterMap f).length = l.length := by
  intro l
  induction l with
  | nil => intro _; rfl
  | cons a l2 ih =>
    intro h
    cases hfa : f a with
    | none =>
      have := h a (List.mem_cons_self _ _)
      rw [hfa] at this
      simp at this
    | some b =>
      simp only [List.filterMap_cons, hfa, List.length_cons]
      rw [ih (fun x hx => h x (List.mem_cons_of_mem _ hx))]

theorem filterMap_nodup {α β : Type} (f : α → Option β) :
    ∀ l : List α, l.Nodup →
    (∀ a b v, a ∈ l → b ∈ l → f a = some v → f b = some v → a = b) →
    (l.filterMap f).Nodup := by
  intro l
  induction l with
  | nil => intro _ _; exact List.nodup_nil
  | cons a l2 ih =>
    intro hnd hinj
    rw [List.nodup_cons] at hnd
    cases hfa : f a with
    | none =>
      simp only [List.filterMap_cons, hfa]
      exact ih hnd.2 (fun x y v hx hy => hinj x y v
        (List.mem_cons_of_mem _ hx) (List.mem_cons_of_mem _ hy))
    | some b =>
      simp only [List.filterMap_cons, hfa]
      rw [List.nodup_cons]
      refine ⟨?_, ih hnd.2 (fun x y v hx hy => hinj x y v
        (List.mem_cons_of_mem _ hx) (List.mem_cons_of_mem _ hy))⟩
      intro hmem
      rcases List.mem_filterMap.mp hmem with ⟨x, hx, hfx⟩
      have hax : a = x := hinj a x b (List.mem_cons_self _ _)
        (List.mem_cons_of_mem _ hx) hfa hfx
      exact hnd.1 (hax ▸ hx)

/-- Decidable wellformedness of a module graph: every listed dependency
target is a module number. -/
theorem wf_of_all (g : WP.MGraph)
    (h : g.succ.all (fun l => l.all (fun m => decide (m < g.n))) = true) :
    ∀ m m2, m2 ∈ WP.succs g m → m2 < g.n := by
  intro m m2 hm2
  unfold WP.succs at hm2
  by_cases hlen : m < g.succ.length
  · rw [List.getD_eq_getElem _ _ hlen] at hm2
    have hmem : g.succ[m] ∈ g.succ := List.getElem_mem hlen
    have := (List.all_eq_true.mp h) _ hmem
    exact of_decide_eq_true ((List.all_eq_true.mp this) _ hm2)
  · rw [List.getD_eq_default] at hm2
    · exact absurd hm2 (List.not_mem_nil _)
    · omega

/-- C6: over a whole seal pass (counters reset to 0, assignIndex run from
every entry module), against a wellformed graph whose run drained within the
given fuel: a module carries an index (and an index2) exactly when it is
reachable from the entries; the ghost write logs show no index or index2 was
ever assigned twice; both assignments are injective, their values are
exactly 0..c-1 for the respective final counter values, the two counters
agree, and the final counter equals the number N of reachable modules — so
the assigned index values (and index2 values) are exactly the set
0..N-1. -/
theorem assignIndex_permutation (g : WP.MGraph) (fuel : Nat) (es : List Nat) (s' : St)
    (hwf : ∀ m m2, m2 ∈ WP.succs g m → m2 < g.n)
    (hes : ∀ e ∈ es, e < g.n)
    (hrun : runEntries g fuel es initSt = some s') :
    (∀ m, (WP.alook s'.idx m).isSome ↔ Reach g es m) ∧
    (∀ m, (WP.alook s'.idx2 m).isSome ↔ Reach g es m) ∧
    (∀ m, s'.w1.count m ≤ 1 ∧ s'.w2.count m ≤ 1) ∧
    (∀ m m2 v, WP.alook s'.idx m = some v → WP.alook s'.idx m2 = some v → m = m2) ∧
    (∀ m m2 v, WP.alook s'.idx2 m = some v → WP.alook s'.idx2 m2 = some v → m = m2) ∧
    (∀ m v, WP.alook s'.idx m = some v → v < s'.c1) ∧
    (∀ v, v < s'.c1 → ∃ m, WP.alook s'.idx m = some v) ∧
    (∀ m v, WP.alook s'.idx2 m = some v → v < s'.c2) ∧
    (∀ v, v < s'.c2 → ∃ m, WP.alook s'.idx2 m = some v) ∧
    s'.c1 = s'.c2 ∧
    ((List.range g.n).filter (fun m => (WP.alook s'.idx m).isSome)).length = s'.c1 := by
  have hinv0 : Inv g es initSt [] :=
    { range1 := fun _ _ h => Option.noConfusion h,
      surj1 := fun v hv => absurd hv (Nat.not_lt_zero v),
      inj1 := fun _ _ _ h _ => Option.noConfusion h,
      range2 := fun _ _ h => Option.noConfusion h,
      surj2 := fun v hv => absurd hv (Nat.not_lt_zero v),
      inj2 := fun _ _ _ h _ => Option.noConfusion h,
      wcount1 := fun _ => rfl, wcount2 := fun _ => rfl,
      postAcc := fun _ => rfl, len1 := rfl, len2 := rfl,
      reach1 := fun _ h => Bool.noConfusion h,
      reachQ := fun t ht => absurd ht (List.not_mem_nil _),
      closure := fun _ h => Bool.noConfusion h }
  obtain ⟨hI, _, hdone⟩ := index_runEntries_inv g es hwf hes fuel es initSt s'
    (fun e he => he) hrun hinv0
  have hw2w1 : ∀ m, s'.w2.count m = s'.w1.count m := by
    intro m
    have := hI.postAcc m
    simpa using this
  have hiff2 : ∀ m, (WP.alook s'.idx2 m).isSome = (WP.alook s'.idx m).isSome := by
    intro m
    have h1 := hI.wcount1 m
    have h2 := hI.wcount2 m
    rw [hw2w1 m, h1] at h2
    by_cases hs1 : (WP.alook s'.idx m).isSome = true <;>
      by_cases hs2 : (WP.alook s'.idx2 m).isSome = true <;>
      simp [hs1, hs2] at h2 ⊢
  have hreach : ∀ m, (WP.alook s'.idx m).isSome ↔ Reach g es m := by
    intro m
    constructor
    · intro h
      exact (hI.reach1 m h).1
    · intro h
      induction h with
      | entry he => exact hdone _ he
      | step hm hsucc ihm =>
        rcases hI.closure _ ihm _ hsucc with hl | hr
        · exact hl
        · exact absurd hr (List.not_mem_nil _)
  refine ⟨hreach, ?_, ?_, hI.inj1, hI.inj2, hI.range1, hI.surj1, hI.range2, hI.surj2, ?_, ?_⟩
  · intro m
    rw [Bool.eq_iff_iff.mp (hiff2 m)]
    exact hreach m
  · intro m
    have h1 := hI.wcount1 m
    have h2 := hI.wcount2 m
    constructor
    · rw [h1]; split <;> omega
    · rw [h2]; split <;> omega
  · have hperm : s'.w1.Perm s'.w2 :=
      List.perm_iff_count.mpr (fun a => (hw2w1 a).symm)
    rw [hI.len1, hI.len2]
    exact hperm.length_eq
  · have hvals :
        List.Perm (((List.range g.n).filter (fun m => (WP.alook s'.idx m).isSome)).filterMap
          (fun m => WP.alook s'.idx m)) (List.range s'.c1) := by
      refine (List.perm_ext_iff_of_nodup ?_ (List.nodup_range _)).mpr ?_
      · refine filterMap_nodup _ _ ((List.nodup_range _).filter _) ?_
        intro a b v _ _ hfa hfb
        exact hI.inj1 a b v hfa hfb
      · intro v
        rw [List.mem_range]
        constructor
        · intro hv
          rcases List.mem_filterMap.mp hv with ⟨m, _, hfm⟩
          exact hI.range1 m v hfm
        · intro hv
          obtain ⟨m, hm⟩ := hI.surj1 v hv
          refine List.mem_filterMap.mpr ⟨m, ?_, hm⟩
          rw [List.mem_filter, List.mem_range]
          have hsome : (WP.alook s'.idx m).isSome = true := by rw [hm]; rfl
          exact ⟨(hI.reach1 m hsome).2, hsome⟩
    have hlen2 := hvals.length_eq
    rw [List.length_range] at hlen2
    rw [← hlen2]
    refine (filterMap_length_eq _ _ ?_).symm
    intro m hm
    exact (List.mem_filter.mp hm).2

/-- Diamond graph for the indexer witness: entry 0 depends on 1 and 2, and 1
depends on 2; all three modules are reachable. -/
def gExI : WP.MGraph := { n := 3, succ := [[1, 2], [2], []] }

/-- Final state of the seal index pass on the witness graph: pre-order
indices 0,1,2 and post-order index2 values 2 ↦ 0, 1 ↦ 1, 0 ↦ 2. -/
def sExI : St :=
  { idx := [(2, 2), (1, 1), (0, 0)], idx2 := [(0, 2), (1, 1), (2, 0)],
    c1 := 3, c2 := 3, w1 := [2, 1, 0], w2 := [0, 1, 2] }

theorem assignIndex_permutation_witness :
    (∀ e ∈ [0], e < gExI.n) ∧
    runEntries gExI 30 [0] initSt = some sExI ∧
    ((∀ m, (WP.alook sExI.idx m).isSome ↔ Reach gExI [0] m) ∧
     (∀ m, (WP.alook sExI.idx2 m).isSome ↔ Reach gExI [0] m) ∧
     (∀ m, sExI.w1.count m ≤ 1 ∧ sExI.w2.count m ≤ 1) ∧
     (∀ m m2 v, WP.alook sExI.idx m = some v → WP.alook sExI.idx m2 = some v → m = m2) ∧
     (∀ m m2 v, WP.alook sExI.idx2 m = some v → WP.alook sExI.idx2 m2 = some v → m = m2) ∧
     (∀ m v, WP.alook sExI.idx m = some v → v < sExI.c1) ∧
     (∀ v, v < sExI.c1 → ∃ m, WP.alook sExI.idx m = some v) ∧
     (∀ m v, WP.alook sExI.idx2 m = some v → v < sExI.c2) ∧
     (∀ v, v < sExI.c2 → ∃ m, WP.alook sExI.idx2 m = some v) ∧
     sExI.c1 = sExI.c2 ∧
     ((List.range gExI.n).filter (fun m => (WP.alook sExI.idx m).isSome)).length
       = sExI.c1) :=
  ⟨by decide, by decide,
   assignIndex_permutation gExI 30 [0] sExI
     (wf_of_all gExI (by decide)) (by decide) (by decide)⟩

end Indexer
